import Mathlib

/-!
# A disk-resident B+ tree index (`btree_indexer.cpp`)

A shallow embedding of the index engine.  Bytes are natural numbers, a
`std::string` or a `char` buffer is a list of bytes, a `long` is an integer
(written to disk as eight little-endian bytes, two's complement).  The index
file is the list of its 1024-byte blocks; of each block the model keeps the
bytes that were copied into the buffer before it was written, the rest of the
buffer being uninitialised memory.  Every address the program computes is the
length of the file at some moment, a multiple of `block_size`.  The global
variables of the program and the files it touches are gathered in `World`.

Operations whose C++ behaviour is undefined (indexing a vector outside its
size, running past the 1024-byte buffer, using a node whose fields were never
set) or whose result is indeterminate (reading bytes that were never written)
end in a `Fault`; the recursion on the tree takes a fuel argument.
-/

namespace BTreeIndex

/-! ## Part 1: definitions -/

/-- The global `block_size` (line 9). -/
def block_size : Nat := 1024

/-- A `std::string`, or a run of bytes in a buffer or a file. -/
abbrev Bytes := List Nat

/-- The ways an operation can leave defined C++ behaviour, and the model's
recursion budget. -/
inductive Fault where
  /-- `operator[]` past the size of a vector, `pop_back` on an empty one. -/
  | out_of_range
  /-- fields of a `Node(long addr)` whose `read_from_disk` returned early. -/
  | uninitialised
  /-- `memcpy` past the end of the 1024-byte buffer. -/
  | buffer_overrun
  /-- bytes of a block that were never written (the tail of the buffer, or
  the file ends before them). -/
  | indeterminate
  /-- an address that is not a multiple of `block_size` (outside the model). -/
  | unaligned
  /-- `string(n, c)` with a negative `n` (`std::length_error`). -/
  | bad_length
  /-- the model ran out of fuel (the C++ recursion or loop is still going). -/
  | fuel
deriving DecidableEq

/-- `a.compare(b)` of `std::string`: bytes compared left to right as unsigned
values, a proper initial segment before the longer string. -/
def str_compare : Bytes → Bytes → Ordering
  | [], [] => Ordering.eq
  | [], _ :: _ => Ordering.lt
  | _ :: _, [] => Ordering.gt
  | a :: as, b :: bs =>
    if a < b then Ordering.lt else if b < a then Ordering.gt else str_compare as bs

/-- `a.compare(b) < 0`. -/
def str_lt (a b : Bytes) : Bool := decide (str_compare a b = Ordering.lt)

/-- `a.compare(b) > 0`. -/
def str_gt (a b : Bytes) : Bool := decide (str_compare a b = Ordering.gt)

/-- `a.compare(b) == 0`. -/
def str_eq (a b : Bytes) : Bool := decide (str_compare a b = Ordering.eq)

/-- `strlen`: the number of bytes before the first zero byte. -/
def strlen : Bytes → Nat
  | [] => 0
  | b :: bs => if b = 0 then 0 else strlen bs + 1

/-- The `strlen(s.c_str()) + 1` bytes that `memcpy(dst, s.c_str(), strlen(s.c_str()) + 1)`
copies: the string up to its first zero byte, then a zero byte. -/
def c_str_copy (s : Bytes) : Bytes := s.take (strlen s) ++ [0]

/-- The file name a stream opens for a `std::string`: its `c_str()`, the bytes
before the first zero byte. -/
def c_name (s : Bytes) : Bytes := s.take (strlen s)

/-- The `width` little-endian bytes of `v`. -/
def le_bytes : Nat → Nat → Bytes
  | 0, _ => []
  | width + 1, v => v % 256 :: le_bytes width (v / 256)

/-- The number whose little-endian bytes are `bs`. -/
def le_value : Bytes → Nat
  | [] => 0
  | b :: bs => b + 256 * le_value bs

/-- The eight bytes `memcpy(buffer, &v, sizeof(long))` writes. -/
def long_bytes (v : Int) : Bytes := le_bytes 8 (v % 2 ^ 64).toNat

/-- The `long` that `memcpy(&v, buf, sizeof(long))` reads from eight bytes. -/
def long_value (bs : Bytes) : Int :=
  if le_value bs < 2 ^ 63 then (le_value bs : Int) else (le_value bs : Int) - 2 ^ 64

/-- The four bytes `memcpy(buffer, &v, sizeof(int))` writes for `v >= 0`. -/
def int_bytes (v : Nat) : Bytes := le_bytes 4 (v % 2 ^ 32)

/-- The `int` four bytes hold, read as a non-negative number. -/
def int_value (bs : Bytes) : Nat := le_value bs

/-- The class `Node` (lines 30-40). -/
structure Node where
  address : Int
  is_leaf : Bool
  keys : List Bytes
  children : List Int
  pointers : List Int
  next : Int
  prev : Int
deriving DecidableEq

/-- The global variables (lines 12-16) and the files of one run.  `index_file`
holds the blocks of the file named by `index_filename`, block `i` at address
`i * block_size`; `data_files` maps a file name to its content. -/
structure World where
  index_file : List Bytes
  data_files : List (Bytes × Bytes)
  degree : Nat
  key_len : Nat
  root_address : Int
  data_filename : Bytes
deriving DecidableEq

/-- The outcome of an operation that may write: a value and the world after
it, or the fault it ran into and the world as it stood then. -/
inductive Res (α : Type) where
  | ok (val : α) (w : World)
  | fault (f : Fault) (w : World)
deriving DecidableEq

deriving instance DecidableEq for Except

/-- The value of an outcome, when the operation completed. -/
def Res.value {α : Type} : Res α → Option α
  | Res.ok a _ => some a
  | Res.fault _ _ => none

/-- The fault of an outcome, when the operation did not complete. -/
def Res.failure {α : Type} : Res α → Option Fault
  | Res.ok _ _ => none
  | Res.fault f _ => some f

/-- The world an outcome leaves: the files as they are on disk then. -/
def Res.world {α : Type} : Res α → World
  | Res.ok _ w => w
  | Res.fault _ w => w

/-- An operation on the world. -/
def Eng (α : Type) : Type := World → Res α

/-- Sequencing: a fault stops the operation where it is. -/
def Eng.bind {α β : Type} (m : Eng α) (f : α → Eng β) : Eng β := fun w =>
  match m w with
  | Res.ok a w1 => f a w1
  | Res.fault e w1 => Res.fault e w1

instance : Monad Eng where
  pure a := fun w => Res.ok a w
  bind := Eng.bind

/-- The current world. -/
def get_world : Eng World := fun w => Res.ok w w

/-- Replace the world. -/
def set_world (w : World) : Eng Unit := fun _ => Res.ok () w

/-- Stop with a fault. -/
def raise {α : Type} (f : Fault) : Eng α := fun w => Res.fault f w

/-- Run a read-only computation in the current world. -/
def lift_read {α : Type} (x : World → Except Fault α) : Eng α := fun w =>
  match x w with
  | Except.ok a => Res.ok a w
  | Except.error e => Res.fault e w

/-- `v[i]` on a vector: a fault outside its size. -/
def vec_at {α : Type} (v : List α) (i : Nat) : Except Fault α :=
  match v[i]? with
  | some a => Except.ok a
  | none => Except.error Fault.out_of_range

/-- `v.insert(v.begin() + i, x)`: a fault when `i` is past the end. -/
def vec_insert {α : Type} (v : List α) (i : Nat) (x : α) : Except Fault (List α) :=
  if v.length < i then Except.error Fault.out_of_range
  else Except.ok (v.take i ++ x :: v.drop i)

/-- `v.erase(v.begin() + i)`. -/
def vec_erase {α : Type} (v : List α) (i : Nat) : List α :=
  v.take i ++ v.drop (i + 1)

/-- The elements `v[lo]`, ..., `v[lo + count - 1]`, read one after another. -/
def vec_slice {α : Type} (v : List α) (lo count : Nat) : Except Fault (List α) :=
  if v.length < lo + count then Except.error Fault.out_of_range
  else Except.ok ((v.drop lo).take count)

/-- The position of the first element that satisfies `p`: where a loop
`for (i = 0; i < v.size(); i++) if (p(v[i])) ...` stops. -/
def first_index {α : Type} (p : α → Bool) : List α → Option Nat
  | [] => none
  | a :: rest => if p a then some 0 else (first_index p rest).map (· + 1)

/-! ### The node codec (lines 84-225) -/

/-- The loop of lines 117-121: every key as a C string. -/
def write_keys : List Bytes → Bytes
  | [] => []
  | key :: rest => c_str_copy key ++ write_keys rest

/-- The loops of lines 126-138: eight bytes for every offset. -/
def write_longs : List Int → Bytes
  | [] => []
  | v :: rest => long_bytes v ++ write_longs rest

/-- The bytes `write_to_disk` copies into `buffer`, in order (lines 96-139). -/
def encode_node (n : Node) : Bytes :=
  [if n.is_leaf then 1 else 0] ++ long_bytes n.next ++ long_bytes n.prev
    ++ long_bytes (n.keys.length : Int) ++ write_keys n.keys
    ++ write_longs (if n.is_leaf = false then n.children else n.pointers)

/-- The length of the index file in bytes (`seekg(0, ios::end)`, `tellg()`). -/
def file_length (file : List Bytes) : Nat := block_size * file.length

/-- Replacing block `i`; past the end the file grows, a gap reading as zero. -/
def set_block (block : Bytes) : List Bytes → Nat → List Bytes
  | [], 0 => [block]
  | [], i + 1 => List.replicate block_size 0 :: set_block block [] i
  | _ :: rest, 0 => block :: rest
  | b :: rest, i + 1 => b :: set_block block rest i

/-- `seekp(address)` and `write(buffer, block_size)` on a stream opened for
reading and writing.  A negative address makes `seekp` fail and nothing is
written. -/
def write_block (file : List Bytes) (address : Int) (block : Bytes) :
    Except Fault (List Bytes) :=
  if address < 0 then Except.ok file
  else if address.toNat % block_size ≠ 0 then Except.error Fault.unaligned
  else Except.ok (set_block block file (address.toNat / block_size))

/-- `flush_node` (lines 151-159): the address stays. -/
def flush_node (n : Node) : Node :=
  { n with is_leaf := false, next := -1, prev := -1, keys := [], children := [], pointers := [] }

/-- `write_to_disk` (lines 84-148).  The node is returned as the call leaves
it in memory: with its address and flushed. -/
def write_to_disk (n : Node) : Eng Node := fun w =>
  let address : Int := if n.address = -1 then (file_length w.index_file : Int) else n.address
  let bytes := encode_node n
  if block_size < bytes.length then Res.fault Fault.buffer_overrun w
  else
    match write_block w.index_file address bytes with
    | Except.error e => Res.fault e w
    | Except.ok file =>
      Res.ok (flush_node { n with address := address }) { w with index_file := file }

/-- `seekg(address)` and `read(buf, block_size)`, for `address >= 0`. -/
def read_block (file : List Bytes) (address : Int) : Except Fault Bytes :=
  if address.toNat % block_size ≠ 0 then Except.error Fault.unaligned
  else
    match file[address.toNat / block_size]? with
    | some block => Except.ok block
    | none => Except.error Fault.indeterminate

/-- The `len` bytes of `buf` from `offset` on. -/
def read_bytes (buf : Bytes) (offset len : Nat) : Except Fault Bytes :=
  if ((buf.drop offset).take len).length = len then Except.ok ((buf.drop offset).take len)
  else Except.error Fault.indeterminate

/-- `memcpy(&v, buf + offset, sizeof(long))`. -/
def read_long (buf : Bytes) (offset : Nat) : Except Fault Int :=
  match read_bytes buf offset 8 with
  | Except.ok bs => Except.ok (long_value bs)
  | Except.error e => Except.error e

/-- The loop of lines 196-201: `count` keys of `key_len` bytes, each followed
by one byte that is skipped, starting at `offset`.  Returns the keys and the
offset after them. -/
def read_keys (buf : Bytes) (key_len : Nat) : Nat → Nat → Except Fault (List Bytes × Nat)
  | 0, offset => Except.ok ([], offset)
  | count + 1, offset =>
    match read_bytes buf offset key_len with
    | Except.error e => Except.error e
    | Except.ok key =>
      match read_keys buf key_len count (offset + key_len + 1) with
      | Except.ok (keys, last) => Except.ok (key :: keys, last)
      | Except.error e => Except.error e

/-- The loops of lines 206-223: `count` longs starting at `offset`. -/
def read_longs (buf : Bytes) : Nat → Nat → Except Fault (List Int)
  | 0, _ => Except.ok []
  | count + 1, offset =>
    match read_long buf offset with
    | Except.error e => Except.error e
    | Except.ok v =>
      match read_longs buf count (offset + 8) with
      | Except.ok vs => Except.ok (v :: vs)
      | Except.error e => Except.error e

/-- The fields `read_from_disk` takes from a block (lines 177-224): `is_leaf`,
`next`, `prev`, the keys and the offsets that follow them (`keys_size + 1` of
them for an internal node, `keys_size` for a leaf). -/
def decode_node (key_len : Nat) (buf : Bytes) :
    Except Fault (Bool × Int × Int × List Bytes × List Int) :=
  match read_bytes buf 0 1, read_long buf 1, read_long buf 9, read_long buf 17 with
  | Except.ok flag, Except.ok next, Except.ok prev, Except.ok keys_size =>
    let is_leaf : Bool := decide (flag ≠ [0])
    match read_keys buf key_len keys_size.toNat 25 with
    | Except.error e => Except.error e
    | Except.ok (keys, offset) =>
      match read_longs buf (if is_leaf = false then (keys_size + 1).toNat else keys_size.toNat)
          offset with
      | Except.error e => Except.error e
      | Except.ok offsets => Except.ok (is_leaf, next, prev, keys, offsets)
  | _, _, _, _ => Except.error Fault.indeterminate

/-- `read_from_disk` (lines 162-225): nothing is read at an address `<= 0`;
otherwise `is_leaf`, `next`, `prev`, `keys` and the payload of the variant
(`children` or `pointers`) are replaced by what the block holds. -/
def read_from_disk (w : World) (n : Node) : Except Fault Node :=
  if n.address ≤ 0 then Except.ok n
  else
    match read_block w.index_file n.address with
    | Except.error e => Except.error e
    | Except.ok buf =>
      match decode_node w.key_len buf with
      | Except.error e => Except.error e
      | Except.ok (is_leaf, next, prev, keys, offsets) =>
        if is_leaf = false then
          Except.ok { n with is_leaf := is_leaf, next := next, prev := prev, keys := keys,
                             children := offsets }
        else
          Except.ok { n with is_leaf := is_leaf, next := next, prev := prev, keys := keys,
                             pointers := offsets }

/-- The constructor `Node(long addr)` (lines 42-46).  At an address `<= 0`
nothing is read and `is_leaf`, `next` and `prev` stay unset; every caller goes
on to read them, which is the fault reported here. -/
def Node.from_address (w : World) (addr : Int) : Except Fault Node :=
  if addr ≤ 0 then Except.error Fault.uninitialised
  else read_from_disk w
    { address := addr, is_leaf := false, keys := [], children := [], pointers := [],
      next := -1, prev := -1 }

/-- The constructor `Node(bool leaf, string key, long val, long ptr)` (lines 49-62). -/
def Node.single (leaf : Bool) (key : Bytes) (val ptr : Int) : Node :=
  { address := -1, is_leaf := leaf, keys := [key],
    children := if leaf then [] else [ptr], pointers := if leaf then [val] else [],
    next := -1, prev := -1 }

/-- The constructor `Node(bool leaf, vector<string> keys_, vector<long> vals,
vector<long> ptrs)` (lines 65-78). -/
def Node.multi (leaf : Bool) (keys : List Bytes) (vals ptrs : List Int) : Node :=
  { address := -1, is_leaf := leaf, keys := keys,
    children := if leaf then [] else ptrs, pointers := if leaf then vals else [],
    next := -1, prev := -1 }

/-- `get_child` (lines 234-239). -/
def get_child (w : World) (n : Node) (idx : Nat) : Except Fault Node :=
  match vec_at n.children idx with
  | Except.error e => Except.error e
  | Except.ok address => Node.from_address w address

/-! ### Splitting (lines 253-311) -/

/-- The `while` loop of `split_index_node` (lines 267-273); `steps` bounds its
iterations, each of which removes one key. -/
def split_index_loop (degree : Nat) :
    Nat → List Bytes → List Int → List Bytes → List Int →
      Except Fault (List Bytes × List Int × List Bytes × List Int)
  | 0, keys, children, new_keys, new_children =>
    Except.ok (keys, children, new_keys, new_children)
  | steps + 1, keys, children, new_keys, new_children =>
    if degree < keys.length then
      match vec_at keys degree, vec_at children (degree + 1) with
      | Except.ok k, Except.ok c =>
        split_index_loop degree steps (vec_erase keys degree) (vec_erase children (degree + 1))
          (new_keys ++ [k]) (new_children ++ [c])
      | _, _ => Except.error Fault.out_of_range
    else Except.ok (keys, children, new_keys, new_children)

/-- `split_index_node` (lines 253-279): the node as the call leaves it, the
`parent_key` it sets, and the new node it returns. -/
def split_index_node (degree : Nat) (index : Node) : Except Fault (Node × Bytes × Node) :=
  match vec_at index.keys degree, vec_at index.children (degree + 1) with
  | Except.ok parent_key, Except.ok first_child =>
    match split_index_loop degree index.keys.length (vec_erase index.keys degree)
        (vec_erase index.children (degree + 1)) [] [first_child] with
    | Except.ok (keys, children, new_keys, new_children) =>
      Except.ok ({ index with keys := keys, children := children }, parent_key,
        Node.multi false new_keys [] new_children)
    | Except.error e => Except.error e
  | _, _ => Except.error Fault.out_of_range

/-- `split_leaf_node` (lines 288-311): the leaf as the call leaves it and the
new node it returns. -/
def split_leaf_node (degree : Nat) (leaf : Node) : Except Fault (Node × Node) :=
  match vec_slice leaf.keys degree (degree + 1), vec_slice leaf.pointers degree (degree + 1) with
  | Except.ok new_keys, Except.ok new_pointers =>
    Except.ok ({ leaf with keys := leaf.keys.take (leaf.keys.length - (degree + 1)),
                           pointers := leaf.pointers.take (leaf.pointers.length - (degree + 1)) },
      Node.multi true new_keys new_pointers [])
  | _, _ => Except.error Fault.out_of_range

/-! ### The metadata block (lines 627-719, 851-854) -/

/-- `s.find(pat)`: the first position at which `pat` occurs in `s`. -/
def find_sub (pat : Bytes) : Bytes → Option Nat
  | [] => if pat = [] then some 0 else none
  | b :: rest =>
    if pat.isPrefixOf (b :: rest) then some 0 else (find_sub pat rest).map (· + 1)

/-- `initialize_bplus_tree` (lines 627-655): the globals are set from block 0.
`end_idx` is an `int`, so a failed `find` gives `substr(0, -1)`, the whole
257-byte string. -/
def initialize_bplus_tree : Eng Unit := fun w =>
  match read_block w.index_file 0 with
  | Except.error e => Res.fault e w
  | Except.ok buffer =>
    match read_bytes buffer 0 257, read_bytes buffer 257 4, read_bytes buffer 261 4,
        read_long buffer 265 with
    | Except.ok get_data_filename, Except.ok key_len, Except.ok degree, Except.ok root_address =>
      let data_filename := match find_sub [48, 48, 48, 48] get_data_filename with
        | some end_idx => get_data_filename.take end_idx
        | none => get_data_filename
      Res.ok () { w with data_filename := data_filename, key_len := int_value key_len,
                         degree := int_value degree, root_address := root_address }
    | _, _, _, _ => Res.fault Fault.indeterminate w

/-- The degree `create_index` computes from the key length (line 692). -/
def degree_of (keylen : Nat) : Nat := (block_size - 50) / ((keylen + 8) * 2)

/-- The part of `create_index` that writes block 0 (lines 677-719); with
`update_flag` this is all the call does.  The local `degree` of line 692 does
not touch the global. -/
def create_index_header (data_file : Bytes) (keylen : Nat) (new_root_address : Int)
    (update_flag : Bool) : Eng Unit := fun w =>
  if 256 < data_file.length then Res.fault Fault.bad_length w
  else
    let filename := data_file ++ List.replicate (256 - data_file.length) 48
    let degree := degree_of keylen
    let w1 := if new_root_address = -1 then { w with root_address := 1024 } else w
    let new_root_address : Int := if new_root_address = -1 then 1024 else new_root_address
    let bytes := c_str_copy filename ++ int_bytes keylen ++ int_bytes degree
      ++ long_bytes new_root_address
    let file := if update_flag then set_block bytes w.index_file 0 else [bytes]
    Res.ok () { w1 with index_file := file }

/-- `update_metadata` (lines 851-854). -/
def update_metadata : Eng Unit := fun w =>
  create_index_header w.data_filename w.key_len w.root_address true w

/-! ### Insertion (lines 322-508) -/

/-- The leaf branch up to the size test (lines 413-436): the entry is put at
the front, at the back, or before the first key that is greater. -/
def leaf_insert_entry (leaf : Node) (key : Bytes) (offset : Int) : Except Fault Node :=
  match vec_at leaf.keys 0 with
  | Except.error e => Except.error e
  | Except.ok first =>
    if str_lt key first then
      Except.ok { leaf with keys := key :: leaf.keys, pointers := offset :: leaf.pointers }
    else
      match vec_at leaf.keys (leaf.keys.length - 1) with
      | Except.error e => Except.error e
      | Except.ok last =>
        if str_gt key last then
          Except.ok { leaf with keys := leaf.keys ++ [key], pointers := leaf.pointers ++ [offset] }
        else
          match first_index (fun k => str_gt k key) leaf.keys with
          | none => Except.ok leaf
          | some key_idx =>
            match vec_insert leaf.keys key_idx key, vec_insert leaf.pointers key_idx offset with
            | Except.ok keys, Except.ok pointers =>
              Except.ok { leaf with keys := keys, pointers := pointers }
            | _, _ => Except.error Fault.out_of_range

/-- The `if (tmp != -1)` blocks of lines 457-462 and 495-500: the leaf at
`tmp` gets `prev = new_address` and is written back. -/
def relink_next (tmp new_address : Int) : Eng Unit :=
  if tmp ≠ -1 then do
    let n ← lift_read (fun w => Node.from_address w tmp)
    let _ ← write_to_disk { n with prev := new_address }
    pure ()
  else pure ()

/-- The leaf branch of `insert_record_in_btree` (lines 411-506), on the leaf
as `read_from_disk` left it. -/
def insert_in_leaf (leaf : Node) (key : Bytes) (offset : Int) : Eng (Option Node) := do
  let leaf ← lift_read (fun _ => leaf_insert_entry leaf key offset)
  let w ← get_world
  if leaf.keys.length ≤ 2 * w.degree then
    let _ ← write_to_disk leaf
    pure none
  else
    let (leaf, newchild) ← lift_read (fun _ => split_leaf_node w.degree leaf)
    if leaf.address = w.root_address then
      let newkey ← lift_read (fun _ => vec_at newchild.keys 0)
      let tmp := leaf.next
      let newchild := { newchild with prev := leaf.address, next := tmp }
      relink_next tmp newchild.address
      let newchild ← write_to_disk newchild
      let leaf ← write_to_disk { leaf with next := newchild.address }
      let new_root := Node.multi false [newkey] [] [leaf.address, newchild.address]
      let new_root ← write_to_disk { new_root with is_leaf := false }
      let w ← get_world
      set_world { w with root_address := new_root.address }
      update_metadata
      pure none
    else
      let newchild ← write_to_disk newchild
      let newchild ← lift_read (fun w => read_from_disk w newchild)
      let tmp := leaf.next
      let leaf := { leaf with next := newchild.address }
      let newchild := { newchild with prev := leaf.address, next := tmp }
      relink_next tmp newchild.address
      let newchild ← write_to_disk newchild
      let _ ← write_to_disk leaf
      pure (some newchild)

/-- The internal branch after the recursive call returned a node (lines
344-408): `newchild->keys[0]` and `newchild->address` are added to `index`,
which is written, or split when it holds more than `2 * degree` keys. -/
def insert_in_index (index newchild : Node) : Eng (Option Node) := do
  let newchild_key ← lift_read (fun _ => vec_at newchild.keys 0)
  let index ←
    match first_index (fun k => str_lt newchild_key k) index.keys with
    | none => pure { index with keys := index.keys ++ [newchild_key],
                                children := index.children ++ [newchild.address] }
    | some key_idx => do
      let keys ← lift_read (fun _ => vec_insert index.keys key_idx newchild_key)
      let children ← lift_read (fun _ => vec_insert index.children (key_idx + 1) newchild.address)
      pure { index with keys := keys, children := children }
  let w ← get_world
  if index.keys.length ≤ 2 * w.degree then
    let _ ← write_to_disk index
    pure none
  else
    let (index, parent_key, newchild) ← lift_read (fun _ => split_index_node w.degree index)
    if index.address = w.root_address then
      let index ← write_to_disk index
      let newchild ← write_to_disk newchild
      let new_root ← write_to_disk (Node.multi false [parent_key] [] [index.address, newchild.address])
      let w ← get_world
      set_world { w with root_address := new_root.address }
      update_metadata
      pure none
    else
      pure (some newchild)

/-- `insert_record_in_btree` (lines 322-508). -/
def insert_record_in_btree : Nat → Node → Bytes → Int → Eng (Option Node)
  | 0, _, _, _ => raise Fault.fuel
  | fuel + 1, root, key, offset => do
    let root ← lift_read (fun w => read_from_disk w root)
    if root.is_leaf = false then
      let index := root
      let posn_key := (first_index (fun k => str_lt key k) index.keys).getD index.keys.length
      let child ← lift_read (fun w => get_child w index posn_key)
      let newchild ← insert_record_in_btree fuel child key offset
      match newchild with
      | none => pure none
      | some newchild => insert_in_index index newchild
    else
      insert_in_leaf root key offset

/-! ### Lookup and listing (lines 518-621) -/

/-- The child an internal node hands the search to (lines 541-553 and
606-619): `get_child(key_idx)` at the first key that `key` is less than,
`get_child(children.size() - 1)` when there is none. -/
def descend (w : World) (root : Node) (key : Bytes) : Except Fault Node :=
  match first_index (fun k => str_lt key k) root.keys with
  | some key_idx => get_child w root key_idx
  | none =>
    if root.children.length = 0 then Except.error Fault.out_of_range
    else get_child w root (root.children.length - 1)

/-- `find_record` (lines 518-555) on a node that is not `NULL`. -/
def find_record (w : World) : Nat → Node → Bytes → Except Fault Int
  | 0, _, _ => Except.error Fault.fuel
  | fuel + 1, root, key =>
    match read_from_disk w root with
    | Except.error e => Except.error e
    | Except.ok root =>
      if root.is_leaf then
        match first_index (fun k => str_eq key k) root.keys with
        | some key_idx => vec_at root.pointers key_idx
        | none => Except.ok (-1)
      else
        match descend w root key with
        | Except.error e => Except.error e
        | Except.ok c => find_record w fuel c key

/-- The content of the file called `name`, if there is one. -/
def file_content (fs : List (Bytes × Bytes)) (name : Bytes) : Option Bytes :=
  match fs with
  | [] => none
  | (n, content) :: rest => if n = name then some content else file_content rest name

/-- Appending `bytes` to the file called `name` (created when missing). -/
def file_append (fs : List (Bytes × Bytes)) (name bytes : Bytes) : List (Bytes × Bytes) :=
  match fs with
  | [] => [(name, bytes)]
  | (n, content) :: rest =>
    if n = name then (n, content ++ bytes) :: rest else (n, content) :: file_append rest name bytes

/-- What `print_record_at_offset` prints (lines 558-568): up to 1000 bytes of
the data file from `key_offset`, cut at the first zero byte and then at the
first newline. -/
def print_record_at_offset (w : World) (key_offset : Int) : Bytes :=
  let data := (file_content w.data_files (c_name w.data_filename)).getD []
  let buf := if key_offset < 0 then [] else (data.drop key_offset.toNat).take 1000
  (buf.take (strlen buf)).takeWhile (fun b => b ≠ 10)

/-- The test of lines 579-581 at position `i` of a leaf. -/
def list_start_here (target_key : Bytes) (keys : List Bytes) (i : Nat) : Bool :=
  str_eq target_key (keys.getD i [])
    || (decide (0 < i) && str_lt target_key (keys.getD (i - 1) [])
          && str_gt target_key (keys.getD i []))
    || decide (keys.length = 1)

/-- The loop of line 576: the first position from `i` on, among the next
`steps`, at which the test succeeds. -/
def list_start (target_key : Bytes) (keys : List Bytes) : Nat → Nat → Option Nat
  | 0, _ => none
  | steps + 1, i =>
    if list_start_here target_key keys i then some i
    else list_start target_key keys steps (i + 1)

/-- The `for` loop of lines 586-591 from position `a`, for at most `steps`
positions: the pointers printed (each with the record text read there) and
the count left. -/
def emit_entries (w : World) (root : Node) :
    Nat → Nat → Int → Except Fault (List (Int × Bytes) × Int)
  | 0, _, count => Except.ok ([], count)
  | steps + 1, a, count =>
    if 0 < count then
      match vec_at root.pointers a with
      | Except.error e => Except.error e
      | Except.ok p =>
        match emit_entries w root steps (a + 1) (count - 1) with
        | Except.error e => Except.error e
        | Except.ok (rest, left) => Except.ok ((p, print_record_at_offset w p) :: rest, left)
    else Except.ok ([], count)

/-- The `while` loop of lines 584-598, started in `root` at position `i`. -/
def emit_chain (w : World) : Nat → Node → Nat → Int → Except Fault (List (Int × Bytes))
  | 0, _, _, _ => Except.error Fault.fuel
  | fuel + 1, root, i, count =>
    if 0 < count then
      match emit_entries w root (root.keys.length - i) i count with
      | Except.error e => Except.error e
      | Except.ok (out, left) =>
        if root.next = -1 then Except.ok out
        else
          match Node.from_address w root.next with
          | Except.error e => Except.error e
          | Except.ok next_node =>
            match emit_chain w fuel next_node i left with
            | Except.error e => Except.error e
            | Except.ok rest => Except.ok (out ++ rest)
    else Except.ok []

/-- `list_records_count` (lines 571-621): the lines printed, as pairs of the
pointer and the record text. -/
def list_records_count (w : World) : Nat → Node → Bytes → Int → Except Fault (List (Int × Bytes))
  | 0, _, _, _ => Except.error Fault.fuel
  | fuel + 1, root, target_key, count =>
    match read_from_disk w root with
    | Except.error e => Except.error e
    | Except.ok root =>
      if root.is_leaf then
        match list_start target_key root.keys root.keys.length 0 with
        | some i => emit_chain w fuel root i count
        | none => Except.ok []
      else
        match descend w root target_key with
        | Except.error e => Except.error e
        | Except.ok c => list_records_count w fuel c target_key count

/-! ### The commands (lines 668-848) -/

/-- What `getline` yields on `data`, line after line, each with the offset at
which it starts; `cur` is the line being read (reversed), `start` its offset
and `pos` the reading position. -/
def getlines (cur : Bytes) (start pos : Nat) : Bytes → List (Bytes × Nat)
  | [] => if cur = [] then [] else [(cur.reverse, start)]
  | b :: rest =>
    if b = 10 then (cur.reverse, start) :: getlines [] (pos + 1) (pos + 1) rest
    else getlines (b :: cur) start (pos + 1) rest

/-- The body of the `while` loop of `create_index` (lines 735-752) over the
lines still to read; returns how many were inserted. -/
def create_index_loop (fuel : Nat) : List (Bytes × Nat) → Bool → Eng Nat
  | [], _ => pure 0
  | (line, offset) :: rest, first_time => do
    let w ← get_world
    let key := line.take w.key_len
    let root ←
      if first_time then pure (Node.single true key (offset : Int) 0)
      else lift_read (fun w => Node.from_address w w.root_address)
    let _ ← insert_record_in_btree fuel root key (offset : Int)
    let count ← create_index_loop fuel rest false
    pure (count + 1)

/-- `create_index(data_file, index_file, keylen, -1, false)` (lines 668-754);
returns the number it prints. -/
def create_index (fuel : Nat) (data_file : Bytes) (keylen : Nat) : Eng Nat := do
  create_index_header data_file keylen (-1) false
  initialize_bplus_tree
  let w ← get_world
  let data := (file_content w.data_files (c_name w.data_filename)).getD []
  create_index_loop fuel (getlines [] 0 0 data) true

/-- What the commands print. -/
inductive Message where
  | cannot_find
  | record (text : Bytes)
  | too_short
  | already_exists
  | inserting (text : Bytes) (key_offset : Int)
deriving DecidableEq

/-- The key `find_index` searches for (lines 772-779): cut to `key_len` bytes
or padded with blanks. -/
def normalize_key (key_len : Nat) (target_key : Bytes) : Bytes :=
  if key_len < target_key.length then target_key.take key_len
  else target_key ++ List.replicate (key_len - target_key.length) 32

/-- `find_index` (lines 764-786). -/
def find_index (fuel : Nat) (target_key : Bytes) : Eng Message := do
  initialize_bplus_tree
  let root ← lift_read (fun w => Node.from_address w w.root_address)
  let w ← get_world
  let target_key := normalize_key w.key_len target_key
  let key_offset ← lift_read (fun w => find_record w fuel root target_key)
  if key_offset = -1 then pure Message.cannot_find
  else pure (Message.record (print_record_at_offset w key_offset))

/-- `insert_record` (lines 797-830). -/
def insert_record (fuel : Nat) (initial_key : Bytes) : Eng Message := do
  initialize_bplus_tree
  let w ← get_world
  if initial_key.length < w.key_len then pure Message.too_short
  else
    let key := initial_key.take w.key_len
    let root ← lift_read (fun w => Node.from_address w w.root_address)
    let found ← lift_read (fun w => find_record w fuel root key)
    if found ≠ -1 then pure Message.already_exists
    else
      let key_offset : Int :=
        ((file_content w.data_files (c_name w.data_filename)).getD []).length
      set_world { w with
        data_files := file_append w.data_files (c_name w.data_filename) (10 :: initial_key) }
      let _ ← insert_record_in_btree fuel root key (key_offset + 1)
      pure (Message.inserting (10 :: initial_key) key_offset)

/-- `list_records` (lines 841-848). -/
def list_records (fuel : Nat) (target_key : Bytes) (count : Int) : Eng (List (Int × Bytes)) := do
  initialize_bplus_tree
  let root ← lift_read (fun w => Node.from_address w w.root_address)
  lift_read (fun w => list_records_count w fuel root target_key count)

/-- `find_record` started at the current root: `new Node(root_address)` and
the call of `find_record` on it (lines 770 and 781, 808 and 811). -/
def find_from_root (w : World) (fuel : Nat) (key : Bytes) : Except Fault Int :=
  match Node.from_address w w.root_address with
  | Except.error e => Except.error e
  | Except.ok root => find_record w fuel root key

/-! ### Well-formed indexes -/

/-- `lo <= k < hi`, a missing bound being no constraint. -/
def in_bounds (lo hi : Option Bytes) (k : Bytes) : Bool :=
  (match lo with
    | none => true
    | some l => !str_lt k l)
  && (match hi with
    | none => true
    | some h => str_lt k h)

/-- The keys of a node are in ascending order. -/
def ascending : List Bytes → Bool
  | [] => true
  | [_] => true
  | a :: b :: rest => str_lt a b && ascending (b :: rest)

/-- The separator rule at one node with keys `keys` and children `children`,
given the check `sub` for a subtree and its bounds: there is one child more
than keys, child `i` holds only keys `< keys[i]` and, for `i >= 1`, keys
`>= keys[i-1]`; the bounds `lo` and `hi` of the node itself pass to its first
and last child. -/
def children_ok (sub : Int → Option Bytes → Option Bytes → Bool) :
    Option Bytes → Option Bytes → List Bytes → List Int → Bool
  | lo, hi, [], [c] => sub c lo hi
  | lo, hi, k :: ks, c :: cs => sub c lo (some k) && children_ok sub (some k) hi ks cs
  | _, _, _, _ => false

/-- The subtree at `addr`, of height at most `h`, is well formed between the
bounds `lo` and `hi`: every node can be read, holds its keys in ascending
order and only keys within the bounds, and an internal node satisfies the
separator rule. -/
def well_formed (w : World) : Nat → Int → Option Bytes → Option Bytes → Bool
  | 0, _, _, _ => false
  | h + 1, addr, lo, hi =>
    match Node.from_address w addr with
    | Except.error _ => false
    | Except.ok n =>
      ascending n.keys && n.keys.all (in_bounds lo hi) &&
        (n.is_leaf || children_ok (fun c l u => well_formed w h c l u) lo hi n.keys n.children)

/-- `i` is the smallest index with `key < keys[i]`, or the number of keys
when no key is greater. -/
def is_descent_index (key : Bytes) (keys : List Bytes) (i : Nat) : Prop :=
  i ≤ keys.length
    ∧ (∀ j k, j < i → keys[j]? = some k → str_lt key k = false)
    ∧ (∀ k, keys[i]? = some k → str_lt key k = true)

/-- The entries of the leaves below each of `children`, left to right. -/
def children_entries (sub : Int → List (Bytes × Int)) : List Int → List (Bytes × Int)
  | [] => []
  | c :: cs => sub c ++ children_entries sub cs

/-- The entries (key, data offset) stored in the leaves of the subtree at
`addr`, left to right. -/
def subtree_entries (w : World) : Nat → Int → List (Bytes × Int)
  | 0, _ => []
  | h + 1, addr =>
    match Node.from_address w addr with
    | Except.error _ => []
    | Except.ok n =>
      if n.is_leaf then n.keys.zip n.pointers
      else children_entries (fun c => subtree_entries w h c) n.children

/-! ### The codec round trip -/

/-- The offsets a node carries after its keys: `children` for an internal
node, `pointers` for a leaf (lines 124-139). -/
def payload (n : Node) : List Int := if n.is_leaf = false then n.children else n.pointers

/-- The value fits a 64-bit `long`. -/
def in_long (v : Int) : Prop := -2 ^ 63 ≤ v ∧ v < 2 ^ 63

/-- The keys of a node are in ascending order, equal neighbours allowed. -/
def ascending_le : List Bytes → Bool
  | [] => true
  | [_] => true
  | a :: b :: rest => !str_lt b a && ascending_le (b :: rest)

/-- The name `initialize_bplus_tree` reads back from the metadata block is the
name `create_index` wrote: the first `0000` of the padded name is where the
padding starts. -/
def name_reads_back (name : Bytes) : Prop :=
  find_sub [48, 48, 48, 48] (name ++ List.replicate (256 - name.length) 48 ++ [0])
    = some name.length

/-! ### Concrete runs -/

/-- A world before `create`: no index file yet, one data file. -/
def start_world (name data : Bytes) : World :=
  { index_file := [], data_files := [(name, data)], degree := 0, key_len := 0,
    root_address := 0, data_filename := [] }

/-- The file name `data`. -/
def data_name : Bytes := [100, 97, 116, 97]

/-- A key of 236 bytes: 235 times the letter `a`, then the byte `c`. -/
def wide_key (c : Nat) : Bytes := List.replicate 235 97 ++ [c]

/-- A data file of `n` records of 236 bytes, ending in the digits `1`, `2`, ... -/
def wide_data : Nat → Bytes
  | 0 => []
  | n + 1 => wide_data n ++ wide_key (49 + n) ++ [10]

/-- `create` with `key_len = 236`, hence `degree = 1`, over the first `n` of
these records. -/
def wide_run (n : Nat) : Res Nat :=
  create_index 8 data_name 236 (start_world data_name (wide_data n))

/-- A data file of one-byte records, one for each byte of `keys`. -/
def letter_data : Bytes → Bytes
  | [] => []
  | c :: rest => c :: 10 :: letter_data rest

/-- `create` with `key_len = 1`, hence `degree = 54`, over one-byte records. -/
def letter_run (keys : Bytes) : Res Nat :=
  create_index 8 data_name 1 (start_world data_name (letter_data keys))

/-- The letters `A` to `Z`. -/
def alphabet : Bytes := (List.range 26).map (fun i => 65 + i)

/-- The one-byte keys `33`, `34`, ..., `count` of them. -/
def byte_keys (count : Nat) : Bytes := (List.range count).map (fun i => 33 + i)

/-- The file name `data0`. -/
def data0_name : Bytes := [100, 97, 116, 97, 48]

/-- A data file whose one record, `HI`, is shorter than a key of five bytes. -/
def short_data : Bytes := [72, 73, 10]

/-- The record of scenario S1: fifteen times `A`, then ` record one`. -/
def one_record : Bytes :=
  List.replicate 15 65 ++ [32, 114, 101, 99, 111, 114, 100, 32, 111, 110, 101]

/-- The data file of scenario S1: that one record. -/
def one_data : Bytes := one_record ++ [10]

/-- A data file whose one record has a zero byte among its first three. -/
def zero_data : Bytes := [65, 0, 66, 67, 68, 10]

/-- The data file of scenario S5: the one record `HI    rest`. -/
def hi_data : Bytes := [72, 73, 32, 32, 32, 32, 114, 101, 115, 116, 10]

/-- `create` with `key_len = 5` over `hi_data`. -/
def hi_run : Res Nat := create_index 8 data_name 5 (start_world data_name hi_data)

/-- The bytes of a metadata block: the file name padded with `'0'` to 256
bytes and its terminating zero, `key_len`, `degree`, the root address. -/
def header_bytes (name : Bytes) (key_len degree : Nat) (root : Int) : Bytes :=
  name ++ List.replicate (256 - name.length) 48 ++ [0] ++ int_bytes key_len ++ int_bytes degree
    ++ long_bytes root

/-- A leaf as it stands in a block. -/
def leaf_node (address : Int) (keys : List Bytes) (pointers : List Int) (prev next : Int) : Node :=
  { address := address, is_leaf := true, keys := keys, children := [], pointers := pointers,
    next := next, prev := prev }

/-- An internal node as it stands in a block. -/
def index_node (address : Int) (keys : List Bytes) (children : List Int) : Node :=
  { address := address, is_leaf := false, keys := keys, children := children, pointers := [],
    next := -1, prev := -1 }

/-- The world after `letter_run keys` when the keys came in ascending order
and all fit the root leaf: the one leaf at 1024 holds them with the offsets
0, 2, 4, ... of their records. -/
def letter_world (keys : Bytes) : World :=
  { index_file :=
      [header_bytes data_name 1 54 1024,
       encode_node (leaf_node 1024 (keys.map (fun c => [c]))
         ((List.range keys.length).map (fun i => (2 * i : Int))) (-1) (-1))],
    data_files := [(data_name, letter_data keys)],
    degree := 54, key_len := 1, root_address := 1024, data_filename := data_name }

/-- The world after `hi_run`. -/
def hi_world : World :=
  { index_file :=
      [header_bytes data_name 5 37 1024,
       encode_node (leaf_node 1024 [[72, 73, 32, 32, 32]] [0] (-1) (-1))],
    data_files := [(data_name, hi_data)],
    degree := 37, key_len := 5, root_address := 1024, data_filename := data_name }

/-- The world after `wide_run 3`: the root leaf has split once; the root at
3072 holds the second key over the leaves at 1024 and 2048. -/
def wide_world3 : World :=
  { index_file :=
      [header_bytes data_name 236 1 3072,
       encode_node (leaf_node 1024 [wide_key 49] [0] (-1) 2048),
       encode_node (leaf_node 2048 [wide_key 50, wide_key 51] [237, 474] 1024 (-1)),
       encode_node (index_node 3072 [wide_key 50] [1024, 2048])],
    data_files := [(data_name, wide_data 3)],
    degree := 1, key_len := 236, root_address := 3072, data_filename := data_name }

/-- The world in which `wide_run 4` stops: the leaf at 2048 was split and
linked to the new leaf at 4096, the root at 3072 is as before. -/
def wide_world4 : World :=
  { index_file :=
      [header_bytes data_name 236 1 3072,
       encode_node (leaf_node 1024 [wide_key 49] [0] (-1) 2048),
       encode_node (leaf_node 2048 [wide_key 50] [237] 1024 4096),
       encode_node (index_node 3072 [wide_key 50] [1024, 2048]),
       encode_node (leaf_node 4096 [wide_key 51, wide_key 52] [474, 711] 2048 (-1))],
    data_files := [(data_name, wide_data 4)],
    degree := 1, key_len := 236, root_address := 3072, data_filename := data_name }

/-- A file name of 256 bytes, the longest `main` accepts: 256 times `a`. -/
def name256 : Bytes := List.replicate 256 97

/-- The world after `wide_run 3` and the insert of a record of 236 bytes that
ends in `0`: the record is at 712 in the data file and its key is the first
of the leaf at 1024. -/
def wide_world3b : World :=
  { index_file :=
      [header_bytes data_name 236 1 3072,
       encode_node (leaf_node 1024 [wide_key 48, wide_key 49] [712, 0] (-1) 2048),
       encode_node (leaf_node 2048 [wide_key 50, wide_key 51] [237, 474] 1024 (-1)),
       encode_node (index_node 3072 [wide_key 50] [1024, 2048])],
    data_files := [(data_name, wide_data 3 ++ 10 :: wide_key 48)],
    degree := 1, key_len := 236, root_address := 3072, data_filename := data_name }

/-! ### Occupancy -/

/-- The run over three wide records completes in `wide_world3`. -/
theorem wide_run_three : wide_run 3 = Res.ok 3 wide_world3 := by decide!

/-- The run of scenario S5 completes in `hi_world`. -/
theorem hi_run_eq : hi_run = Res.ok 1 hi_world := by decide!

/-- The run over the records `A` and `C` completes in a single leaf. -/
theorem letter_run_ac : letter_run [65, 67] = Res.ok 2 (letter_world [65, 67]) := by decide!

/-- The run over the records `A` to `Z` completes in a single leaf. -/
theorem letter_run_alphabet : letter_run alphabet = Res.ok 26 (letter_world alphabet) := by
  decide!

/-- The run over four wide records stops in `wide_world4`: the fourth insert
splits the leaf at 2048, which is not the root, and the root then indexes the
empty `keys` of the node that `write_to_disk` has flushed. -/
theorem wide_run_four : wide_run 4 = Res.fault Fault.out_of_range wide_world4 := by decide!

/-! ### The order on keys -/

theorem str_compare_eq_iff (a b : Bytes) : str_compare a b = Ordering.eq ↔ a = b := by
  induction a generalizing b with
  | nil => cases b <;> simp [str_compare]
  | cons x xs ih =>
    cases b with
    | nil => simp [str_compare]
    | cons y ys =>
      simp only [str_compare]
      split_ifs with h1 h2
      · simp; omega
      · simp; omega
      · have : x = y := by omega
        simp [ih, this]

theorem str_compare_swap (a b : Bytes) : str_compare b a = (str_compare a b).swap := by
  induction a generalizing b with
  | nil => cases b <;> simp [str_compare, Ordering.swap]
  | cons x xs ih =>
    cases b with
    | nil => simp [str_compare, Ordering.swap]
    | cons y ys =>
      simp only [str_compare]
      split_ifs
      all_goals first | omega | rfl | exact ih ys

theorem str_compare_lt_trans (a b c : Bytes) (h1 : str_compare a b = Ordering.lt)
    (h2 : str_compare b c = Ordering.lt) : str_compare a c = Ordering.lt := by
  induction a generalizing b c with
  | nil =>
    cases b with
    | nil => simp [str_compare] at h1
    | cons y ys => cases c <;> simp_all [str_compare]
  | cons x xs ih =>
    cases b with
    | nil => simp [str_compare] at h1
    | cons y ys =>
      cases c with
      | nil => simp [str_compare] at h2
      | cons z zs =>
        simp only [str_compare] at h1 h2 ⊢
        split_ifs at h1 h2 ⊢ <;> first | rfl | omega | (exact ih _ _ h1 h2)

theorem str_lt_iff (a b : Bytes) : str_lt a b = true ↔ str_compare a b = Ordering.lt := by
  simp [str_lt]

theorem str_eq_iff (a b : Bytes) : str_eq a b = true ↔ a = b := by
  simp [str_eq, str_compare_eq_iff]

theorem str_lt_trans {a b c : Bytes} (h1 : str_lt a b = true) (h2 : str_lt b c = true) :
    str_lt a c = true := by
  rw [str_lt_iff] at *
  exact str_compare_lt_trans a b c h1 h2

theorem str_lt_asymm {a b : Bytes} (h : str_lt a b = true) : str_lt b a = false := by
  rw [str_lt_iff] at h
  simp [str_lt, str_compare_swap a b, h, Ordering.swap]

theorem str_lt_irrefl (a : Bytes) : str_lt a a = false := by
  have h := (str_compare_eq_iff a a).2 rfl
  simp [str_lt, h]

/-- From `a <= b` and `b < c`. -/
theorem str_lt_of_le_of_lt {a b c : Bytes} (h1 : str_lt b a = false) (h2 : str_lt b c = true) :
    str_lt a c = true := by
  cases hab : str_compare a b with
  | lt => exact str_lt_trans ((str_lt_iff a b).2 hab) h2
  | eq => rw [(str_compare_eq_iff a b).1 hab]; exact h2
  | gt =>
    have : str_compare b a = Ordering.lt := by rw [str_compare_swap a b, hab]; rfl
    rw [(str_lt_iff b a).2 this] at h1
    exact absurd h1 (by simp)

/-- From `a < b` and `b <= c`. -/
theorem str_lt_of_lt_of_le {a b c : Bytes} (h1 : str_lt a b = true) (h2 : str_lt c b = false) :
    str_lt a c = true := by
  cases hbc : str_compare b c with
  | lt => exact str_lt_trans h1 ((str_lt_iff b c).2 hbc)
  | eq => rw [← (str_compare_eq_iff b c).1 hbc]; exact h1
  | gt =>
    have : str_compare c b = Ordering.lt := by rw [str_compare_swap b c, hbc]; rfl
    rw [(str_lt_iff c b).2 this] at h2
    exact absurd h2 (by simp)

/-- From `a <= b` and `b <= c`. -/
theorem str_le_trans {a b c : Bytes} (h1 : str_lt b a = false) (h2 : str_lt c b = false) :
    str_lt c a = false := by
  cases h : str_lt c a with
  | false => rfl
  | true =>
    have := str_lt_of_lt_of_le h h1
    rw [this] at h2
    exact absurd h2 (by simp)

/-! ### Reading nodes -/

theorem read_keys_length (buf : Bytes) (key_len : Nat) :
    ∀ (count offset : Nat) (keys : List Bytes) (last : Nat),
      read_keys buf key_len count offset = Except.ok (keys, last) → keys.length = count := by
  intro count
  induction count with
  | zero =>
    intro offset keys last h
    simp only [read_keys, Except.ok.injEq, Prod.mk.injEq] at h
    rw [← h.1]; rfl
  | succ n ih =>
    intro offset keys last h
    simp only [read_keys] at h
    split at h
    · exact absurd h (by simp)
    · split at h
      · rename_i ks l hrec
        simp only [Except.ok.injEq, Prod.mk.injEq] at h
        rw [← h.1, List.length_cons, ih _ _ _ hrec]
      · exact absurd h (by simp)

theorem read_longs_length (buf : Bytes) :
    ∀ (count offset : Nat) (vs : List Int),
      read_longs buf count offset = Except.ok vs → vs.length = count := by
  intro count
  induction count with
  | zero =>
    intro offset vs h
    simp only [read_longs, Except.ok.injEq] at h
    rw [← h]; rfl
  | succ n ih =>
    intro offset vs h
    simp only [read_longs] at h
    split at h
    · exact absurd h (by simp)
    · split at h
      · rename_i vs1 hrec
        simp only [Except.ok.injEq] at h
        rw [← h, List.length_cons, ih _ _ hrec]
      · exact absurd h (by simp)

/-- A decoded leaf has as many offsets as keys. -/
theorem decode_node_leaf_lengths (key_len : Nat) (buf : Bytes) (next prev : Int)
    (keys : List Bytes) (offsets : List Int)
    (h : decode_node key_len buf = Except.ok (true, next, prev, keys, offsets)) :
    offsets.length = keys.length := by
  unfold decode_node at h
  split at h
  · rename_i flag nx pv keys_size _ _ _ _
    simp only at h
    split at h
    · exact absurd h (by simp)
    · rename_i ks off hk
      split at h
      · exact absurd h (by simp)
      · rename_i offs ho
        simp only [Except.ok.injEq, Prod.mk.injEq] at h
        obtain ⟨h1, _, _, h4, h5⟩ := h
        rw [h1] at ho
        simp only [Bool.true_eq_false, if_false] at ho
        rw [← h4, ← h5, read_keys_length _ _ _ _ _ _ hk, read_longs_length _ _ _ _ ho]
  · exact absurd h (by simp)

/-- What a successful `Node(addr)` gives: the address is positive, reading the
node again changes nothing, and a leaf has as many pointers as keys. -/
theorem from_address_ok (w : World) (addr : Int) (n : Node)
    (h : Node.from_address w addr = Except.ok n) :
    0 < addr ∧ n.address = addr ∧ read_from_disk w n = Except.ok n
      ∧ (n.is_leaf = true → n.pointers.length = n.keys.length) := by
  unfold Node.from_address at h
  split at h
  · exact absurd h (by simp)
  · rename_i hpos
    have hpos1 : 0 < addr := by omega
    unfold read_from_disk at h
    simp only [hpos, if_false] at h
    split at h
    · exact absurd h (by simp)
    · rename_i buf hbuf
      split at h
      · exact absurd h (by simp)
      · rename_i is_leaf next prev keys offsets hdec
        split at h
        · rename_i hleaf
          simp only [Except.ok.injEq] at h
          subst h
          refine ⟨hpos1, rfl, ?_, ?_⟩
          · unfold read_from_disk
            simp only [hpos, if_false, hbuf, hdec, hleaf, if_true]
          · intro hl
            simp only at hl
            rw [hleaf] at hl
            exact absurd hl (by simp)
        · rename_i hleaf
          have hleaf1 : is_leaf = true := by
            cases is_leaf with
            | true => rfl
            | false => exact absurd rfl hleaf
          simp only [Except.ok.injEq] at h
          subst h
          refine ⟨hpos1, rfl, ?_, ?_⟩
          · unfold read_from_disk
            simp only [hpos, if_false, hbuf, hdec, hleaf, hleaf1]
            simp
          · intro _
            simp only
            rw [hleaf1] at hdec
            exact decode_node_leaf_lengths _ _ _ _ _ _ hdec

/-! ### Lookup in a well-formed index -/

theorem in_bounds_iff (lo hi : Option Bytes) (k : Bytes) :
    in_bounds lo hi k = true ↔
      (∀ l, lo = some l → str_lt k l = false) ∧ (∀ u, hi = some u → str_lt k u = true) := by
  cases lo <;> cases hi <;> simp [in_bounds]

theorem ascending_tail (k : Bytes) (ks : List Bytes) (h : ascending (k :: ks) = true) :
    ascending ks = true := by
  cases ks with
  | nil => rfl
  | cons y ys =>
    simp only [ascending, Bool.and_eq_true] at h
    exact h.2

theorem ascending_head_lt (ks : List Bytes) :
    ∀ k : Bytes, ascending (k :: ks) = true → ∀ x ∈ ks, str_lt k x = true := by
  induction ks with
  | nil => intro k _ x hx; cases hx
  | cons y ys ih =>
    intro k h x hx
    simp only [ascending, Bool.and_eq_true] at h
    rcases List.mem_cons.1 hx with rfl | hx
    · exact h.1
    · exact str_lt_trans h.1 (ih y h.2 x hx)

theorem vec_at_cons_succ {α : Type} (a : α) (v : List α) (i : Nat) :
    vec_at (a :: v) (i + 1) = vec_at v i := by
  simp [vec_at]

theorem vec_at_of_get {α : Type} (v : List α) (i : Nat) (a : α) (h : v[i]? = some a) :
    vec_at v i = Except.ok a := by
  simp [vec_at, h]

/-- In a leaf with ascending keys the scan stops at the entry of `key`. -/
theorem leaf_lookup (key : Bytes) (p : Int) :
    ∀ (keys : List Bytes) (ptrs : List Int), ascending keys = true → (key, p) ∈ keys.zip ptrs →
      ∃ i, first_index (fun k => str_eq key k) keys = some i ∧ vec_at ptrs i = Except.ok p := by
  intro keys
  induction keys with
  | nil => intro ptrs _ h; simp at h
  | cons k ks ih =>
    intro ptrs hasc h
    cases ptrs with
    | nil => simp at h
    | cons q qs =>
      simp only [List.zip_cons_cons, List.mem_cons, Prod.mk.injEq] at h
      rcases h with ⟨rfl, rfl⟩ | h
      · exact ⟨0, by simp [first_index, (str_eq_iff key key).2 rfl], by simp [vec_at]⟩
      · obtain ⟨i, hi, hv⟩ := ih qs (ascending_tail k ks hasc) h
        have hmem : key ∈ ks := (List.of_mem_zip h).1
        have hlt := ascending_head_lt ks k hasc key hmem
        have hne : str_eq key k = false := by
          cases hk : str_eq key k with
          | false => rfl
          | true =>
            rw [(str_eq_iff key k).1 hk, str_lt_irrefl] at hlt
            exact absurd hlt (by simp)
        exact ⟨i + 1, by simp [first_index, hne, hi], by rw [vec_at_cons_succ]; exact hv⟩

/-- A key no entry of the leaf has is not met by the scan. -/
theorem leaf_lookup_none (key : Bytes) :
    ∀ (keys : List Bytes) (ptrs : List Int), ptrs.length = keys.length →
      (∀ p, (key, p) ∉ keys.zip ptrs) → first_index (fun k => str_eq key k) keys = none := by
  intro keys
  induction keys with
  | nil => intro _ _ _; rfl
  | cons k ks ih =>
    intro ptrs hlen h
    cases ptrs with
    | nil => simp at hlen
    | cons q qs =>
      have hne : str_eq key k = false := by
        cases hk : str_eq key k with
        | false => rfl
        | true =>
          have := (str_eq_iff key k).1 hk
          exact absurd (by simp [this]) (h q)
      have hrest : first_index (fun k => str_eq key k) ks = none := by
        apply ih qs (by simpa using hlen)
        intro p hp
        exact h p (by simp [hp])
      simp [first_index, hne, hrest]

theorem children_ok_length (sub : Int → Option Bytes → Option Bytes → Bool) :
    ∀ (ks : List Bytes) (cs : List Int) (l hi : Option Bytes),
      children_ok sub l hi ks cs = true → cs.length = ks.length + 1 := by
  intro ks
  induction ks with
  | nil =>
    intro cs l hi h
    match cs, h with
    | [_], _ => rfl
    | [], h => simp [children_ok] at h
    | _ :: _ :: _, h => simp [children_ok] at h
  | cons k ks ih =>
    intro cs l hi h
    cases cs with
    | nil => simp [children_ok] at h
    | cons c cs =>
      simp only [children_ok, Bool.and_eq_true] at h
      simp [ih cs _ _ h.2]

/-- Below a node whose first bound is `l0`, no entry is less than `l0`. -/
theorem children_lower (sub : Int → Option Bytes → Option Bytes → Bool)
    (ent : Int → List (Bytes × Int))
    (hent : ∀ c a b, sub c a b = true → ∀ e ∈ ent c, in_bounds a b e.1 = true) :
    ∀ (ks : List Bytes) (cs : List Int) (l0 : Bytes) (hi : Option Bytes),
      children_ok sub (some l0) hi ks cs = true → ascending ks = true →
      (∀ k ∈ ks, str_lt k l0 = false) →
      ∀ e ∈ children_entries ent cs, str_lt e.1 l0 = false := by
  intro ks
  induction ks with
  | nil =>
    intro cs l0 hi h _ _ e he
    match cs, h, he with
    | [c], h, he =>
      simp only [children_ok] at h
      simp only [children_entries, List.append_nil] at he
      exact ((in_bounds_iff _ _ _).1 (hent c _ _ h e he)).1 l0 rfl
    | [], h, _ => simp [children_ok] at h
    | _ :: _ :: _, h, _ => simp [children_ok] at h
  | cons k ks ih =>
    intro cs l0 hi h hasc hks e he
    cases cs with
    | nil => simp [children_ok] at h
    | cons c cs =>
      simp only [children_ok, Bool.and_eq_true] at h
      simp only [children_entries, List.mem_append] at he
      rcases he with he | he
      · exact ((in_bounds_iff _ _ _).1 (hent c _ _ h.1 e he)).1 l0 rfl
      · have h1 : ∀ k1 ∈ ks, str_lt k1 k = false := fun k1 hk1 =>
          str_lt_asymm (ascending_head_lt ks k hasc k1 hk1)
        have h2 := ih cs k hi h.2 (ascending_tail k ks hasc) h1 e he
        exact str_le_trans (hks k (List.mem_cons_self k ks)) h2

/-- The entries below a node are within the bounds of the node, when its keys are. -/
theorem children_in_bounds (sub : Int → Option Bytes → Option Bytes → Bool)
    (ent : Int → List (Bytes × Int))
    (hent : ∀ c a b, sub c a b = true → ∀ e ∈ ent c, in_bounds a b e.1 = true)
    (lo hi : Option Bytes) :
    ∀ (ks : List Bytes) (cs : List Int) (l : Option Bytes),
      children_ok sub l hi ks cs = true → (∀ k ∈ ks, in_bounds lo hi k = true) →
      (∀ x : Bytes, (∀ l1, l = some l1 → str_lt x l1 = false) →
        ∀ l1, lo = some l1 → str_lt x l1 = false) →
      ∀ e ∈ children_entries ent cs, in_bounds lo hi e.1 = true := by
  intro ks
  induction ks with
  | nil =>
    intro cs l h _ hl e he
    match cs, h, he with
    | [c], h, he =>
      simp only [children_ok] at h
      simp only [children_entries, List.append_nil] at he
      have hb := (in_bounds_iff _ _ _).1 (hent c _ _ h e he)
      exact (in_bounds_iff _ _ _).2 ⟨hl e.1 hb.1, hb.2⟩
    | [], h, _ => simp [children_ok] at h
    | _ :: _ :: _, h, _ => simp [children_ok] at h
  | cons k ks ih =>
    intro cs l h hks hl e he
    cases cs with
    | nil => simp [children_ok] at h
    | cons c cs =>
      simp only [children_ok, Bool.and_eq_true] at h
      simp only [children_entries, List.mem_append] at he
      have hk := (in_bounds_iff _ _ _).1 (hks k (List.mem_cons_self k ks))
      rcases he with he | he
      · have hb := (in_bounds_iff _ _ _).1 (hent c _ _ h.1 e he)
        refine (in_bounds_iff _ _ _).2 ⟨hl e.1 hb.1, ?_⟩
        intro u hu
        exact str_lt_trans (hb.2 k rfl) (hk.2 u hu)
      · refine ih cs (some k) h.2 (fun k1 hk1 => hks k1 (List.mem_cons_of_mem k hk1)) ?_ e he
        intro x hx l1 hl1
        exact str_le_trans (hk.1 l1 hl1) (hx k rfl)

/-- The child the descent rule picks at a node that satisfies the separator
rule: it is a well-formed subtree, and the one that holds `key` when any does. -/
theorem pick_child (sub : Int → Option Bytes → Option Bytes → Bool)
    (ent : Int → List (Bytes × Int))
    (hent : ∀ c a b, sub c a b = true → ∀ e ∈ ent c, in_bounds a b e.1 = true)
    (key : Bytes) :
    ∀ (ks : List Bytes) (cs : List Int) (l hi : Option Bytes),
      children_ok sub l hi ks cs = true → ascending ks = true →
      ∃ c a b, cs[(first_index (fun k => str_lt key k) ks).getD (cs.length - 1)]? = some c
        ∧ sub c a b = true
        ∧ (∀ e ∈ ent c, e ∈ children_entries ent cs)
        ∧ (∀ p, (key, p) ∈ children_entries ent cs → (key, p) ∈ ent c) := by
  intro ks
  induction ks with
  | nil =>
    intro cs l hi h _
    match cs, h with
    | [c], h =>
      simp only [children_ok] at h
      exact ⟨c, l, hi, by simp [first_index], h, by simp [children_entries],
        by simp [children_entries]⟩
    | [], h => simp [children_ok] at h
    | _ :: _ :: _, h => simp [children_ok] at h
  | cons k ks ih =>
    intro cs l hi h hasc
    cases cs with
    | nil => simp [children_ok] at h
    | cons c cs =>
      simp only [children_ok, Bool.and_eq_true] at h
      have hlen := children_ok_length sub ks cs _ _ h.2
      cases hk : str_lt key k with
      | true =>
        refine ⟨c, l, some k, by simp [first_index, hk], h.1, ?_, ?_⟩
        · intro e he
          simp [children_entries, he]
        · intro p hp
          simp only [children_entries, List.mem_append] at hp
          rcases hp with hp | hp
          · exact hp
          · have h1 : ∀ k1 ∈ ks, str_lt k1 k = false := fun k1 hk1 =>
              str_lt_asymm (ascending_head_lt ks k hasc k1 hk1)
            have := children_lower sub ent hent ks cs k hi h.2 (ascending_tail k ks hasc) h1
              (key, p) hp
            simp only at this
            rw [hk] at this
            exact absurd this (by simp)
      | false =>
        obtain ⟨c1, a, b, hget, hsub, hsubset, hkey⟩ := ih cs (some k) hi h.2
          (ascending_tail k ks hasc)
        refine ⟨c1, a, b, ?_, hsub, ?_, ?_⟩
        · have hidx : (first_index (fun k => str_lt key k) (k :: ks)).getD
              ((c :: cs).length - 1)
              = (first_index (fun k => str_lt key k) ks).getD (cs.length - 1) + 1 := by
            simp only [first_index, hk, Bool.false_eq_true, if_false, List.length_cons,
              Nat.add_sub_cancel]
            cases first_index (fun k => str_lt key k) ks with
            | none => simp; omega
            | some j => simp
          rw [hidx, List.getElem?_cons_succ]
          exact hget
        · intro e he
          simp [children_entries, hsubset e he]
        · intro p hp
          simp only [children_entries, List.mem_append] at hp
          rcases hp with hp | hp
          · have := ((in_bounds_iff _ _ _).1 (hent c _ _ h.1 (key, p) hp)).2 k rfl
            simp only at this
            rw [hk] at this
            exact absurd this (by simp)
          · exact hkey p hp

theorem well_formed_from_address (w : World) (h : Nat) (addr : Int) (lo hi : Option Bytes)
    (hwf : well_formed w h addr lo hi = true) :
    ∃ n, Node.from_address w addr = Except.ok n := by
  cases h with
  | zero => simp [well_formed] at hwf
  | succ h =>
    simp only [well_formed] at hwf
    split at hwf
    · exact absurd hwf (by simp)
    · rename_i n hn
      exact ⟨n, hn⟩

/-- Every entry of a well-formed subtree lies within its bounds. -/
theorem subtree_entries_in_bounds (w : World) :
    ∀ (h : Nat) (addr : Int) (lo hi : Option Bytes), well_formed w h addr lo hi = true →
      ∀ e ∈ subtree_entries w h addr, in_bounds lo hi e.1 = true := by
  intro h
  induction h with
  | zero => intro addr lo hi hwf; simp [well_formed] at hwf
  | succ h ih =>
    intro addr lo hi hwf e he
    simp only [well_formed] at hwf
    simp only [subtree_entries] at he
    split at hwf
    · exact absurd hwf (by simp)
    · rename_i n hn
      rw [hn] at he
      simp only [Bool.and_eq_true, Bool.or_eq_true, List.all_eq_true] at hwf
      obtain ⟨⟨_, hall⟩, hsub⟩ := hwf
      cases hleaf : n.is_leaf with
      | true =>
        simp only [hleaf, if_true] at he
        exact hall e.1 (List.of_mem_zip (a := e.1) (b := e.2) he).1
      | false =>
        simp only [hleaf, Bool.false_eq_true, if_false, false_or] at he hsub
        exact children_in_bounds (fun c l u => well_formed w h c l u)
          (fun c => subtree_entries w h c) (fun c a b hc => ih c a b hc) lo hi n.keys n.children
          lo hsub hall (fun _ hx => hx) e he

theorem first_index_descent (key : Bytes) :
    ∀ (keys : List Bytes) (i : Nat), is_descent_index key keys i →
      (first_index (fun k => str_lt key k) keys).getD keys.length = i := by
  intro keys
  induction keys with
  | nil =>
    intro i h
    have := h.1
    simp at this
    simp [first_index, this]
  | cons k ks ih =>
    intro i h
    obtain ⟨h1, h2, h3⟩ := h
    cases i with
    | zero =>
      have := h3 k (by simp)
      simp [first_index, this]
    | succ i =>
      have hk := h2 0 k (by omega) (by simp)
      have hrec : is_descent_index key ks i := by
        refine ⟨by simpa using h1, ?_, ?_⟩
        · intro j k1 hj hk1
          exact h2 (j + 1) k1 (by omega) (by simpa using hk1)
        · intro k1 hk1
          exact h3 k1 (by simpa using hk1)
      have := ih i hrec
      simp only [first_index, hk, Bool.false_eq_true, if_false, List.length_cons]
      cases hf : first_index (fun k => str_lt key k) ks with
      | none => simp [hf] at this; simp [this]
      | some j => simp [hf] at this; simp [this]

theorem descend_eq (w : World) (root : Node) (key : Bytes) (h : root.children ≠ []) :
    descend w root key = get_child w root
      ((first_index (fun k => str_lt key k) root.keys).getD (root.children.length - 1)) := by
  unfold descend
  cases first_index (fun k => str_lt key k) root.keys with
  | some i => rfl
  | none =>
    have : root.children.length ≠ 0 := by
      intro h0
      exact h (List.length_eq_zero.1 h0)
    simp [this]

/-- `find_record` on a well-formed subtree: the offset of `key` when an entry
holds it, `-1` when none does, given fuel for the height. -/
theorem find_record_aux (w : World) (key : Bytes) :
    ∀ (h : Nat) (addr : Int) (lo hi : Option Bytes) (root : Node) (fuel : Nat),
      well_formed w h addr lo hi = true → Node.from_address w addr = Except.ok root →
      h ≤ fuel →
      (∀ p, (key, p) ∈ subtree_entries w h addr → find_record w fuel root key = Except.ok p)
      ∧ ((∀ p, (key, p) ∉ subtree_entries w h addr) →
          find_record w fuel root key = Except.ok (-1)) := by
  intro h
  induction h with
  | zero => intro addr lo hi root fuel hwf; simp [well_formed] at hwf
  | succ h ih =>
    intro addr lo hi root fuel hwf hroot hfuel
    obtain ⟨f, rfl⟩ : ∃ f, fuel = f + 1 := ⟨fuel - 1, by omega⟩
    obtain ⟨_, _, hread, hlen⟩ := from_address_ok w addr root hroot
    simp only [well_formed, hroot, Bool.and_eq_true, Bool.or_eq_true] at hwf
    obtain ⟨⟨hasc, _⟩, hsub⟩ := hwf
    simp only [subtree_entries, hroot, find_record, hread]
    cases hleaf : root.is_leaf with
    | true =>
      simp only [if_true]
      constructor
      · intro p hp
        obtain ⟨i, hi1, hi2⟩ := leaf_lookup key p root.keys root.pointers hasc hp
        simp only [hi1, hi2]
      · intro hnone
        rw [leaf_lookup_none key root.keys root.pointers (hlen hleaf) hnone]
    | false =>
      simp only [hleaf, Bool.false_eq_true, if_false, false_or] at hsub ⊢
      obtain ⟨c, a, b, hget, hc, hsubset, hkey⟩ :=
        pick_child (fun c l u => well_formed w h c l u) (fun c => subtree_entries w h c)
          (fun c a b hc => subtree_entries_in_bounds w h c a b hc) key root.keys root.children
          lo hi hsub hasc
      have hne : root.children ≠ [] := by
        intro h0
        rw [h0] at hget
        simp at hget
      obtain ⟨croot, hcroot⟩ := well_formed_from_address w h c a b hc
      have hdesc : descend w root key = Except.ok croot := by
        rw [descend_eq w root key hne]
        simp only [get_child, vec_at_of_get _ _ _ hget, hcroot]
      simp only [hdesc]
      have hrec := ih c a b croot f hc hcroot (by omega)
      constructor
      · intro p hp
        exact hrec.1 p (hkey p hp)
      · intro hnone
        exact hrec.2 (fun p hp => hnone p (hsubset _ hp))

theorem not_mem_entries (entries : List (Bytes × Int)) (key : Bytes)
    (h : key ∉ entries.map Prod.fst) : ∀ p, (key, p) ∉ entries := by
  intro p hp
  exact h (List.mem_map.2 ⟨(key, p), hp, rfl⟩)

/-- C2: in an index whose nodes hold their keys in ascending order and whose
internal nodes satisfy the separator rule, `find_record` descends at an
internal node into `children[i]` for the smallest `i` with `key < keys[i]`
(the rightmost child when there is none), returns the offset paired with
`key` when an entry of the tree holds it, and `-1` when no leaf holds `key`.
The statement holds at every node of the tree, whatever its bounds, once the
fuel covers the height. -/
theorem find_record_spec (w : World) (h : Nat) (addr : Int) (lo hi : Option Bytes)
    (root : Node) (key : Bytes) (fuel : Nat)
    (hwf : well_formed w h addr lo hi = true)
    (hroot : Node.from_address w addr = Except.ok root) (hfuel : h ≤ fuel) :
    (root.is_leaf = false → ∀ i, is_descent_index key root.keys i →
        ∃ c f, fuel = f + 1 ∧ get_child w root i = Except.ok c
          ∧ find_record w fuel root key = find_record w f c key)
    ∧ (∀ p, (key, p) ∈ subtree_entries w h addr → find_record w fuel root key = Except.ok p)
    ∧ ((∀ p, (key, p) ∉ subtree_entries w h addr) →
        find_record w fuel root key = Except.ok (-1)) := by
  refine ⟨?_, find_record_aux w key h addr lo hi root fuel hwf hroot hfuel⟩
  intro hleaf i hdescent
  cases h with
  | zero => simp [well_formed] at hwf
  | succ h =>
    obtain ⟨f, rfl⟩ : ∃ f, fuel = f + 1 := ⟨fuel - 1, by omega⟩
    obtain ⟨_, _, hread, _⟩ := from_address_ok w addr root hroot
    simp only [well_formed, hroot, Bool.and_eq_true, Bool.or_eq_true, hleaf, Bool.false_eq_true,
      false_or] at hwf
    obtain ⟨⟨hasc, _⟩, hsub⟩ := hwf
    obtain ⟨c, a, b, hget, hc, _, _⟩ :=
      pick_child (fun c l u => well_formed w h c l u) (fun c => subtree_entries w h c)
        (fun c a b hc => subtree_entries_in_bounds w h c a b hc) key root.keys root.children
        lo hi hsub hasc
    have hlen := children_ok_length _ _ _ _ _ hsub
    have hne : root.children ≠ [] := by
      intro h0
      rw [h0] at hget
      simp at hget
    obtain ⟨croot, hcroot⟩ := well_formed_from_address w h c a b hc
    have hidx : (first_index (fun k => str_lt key k) root.keys).getD (root.children.length - 1)
        = i := by
      rw [hlen, Nat.add_sub_cancel]
      exact first_index_descent key root.keys i hdescent
    rw [hidx] at hget
    have hchild : get_child w root i = Except.ok croot := by
      simp only [get_child, vec_at_of_get _ _ _ hget, hcroot]
    have hdesc : descend w root key = Except.ok croot := by
      rw [descend_eq w root key hne, hidx, hchild]
    refine ⟨croot, f, rfl, hchild, ?_⟩
    simp only [find_record, hread, hleaf, Bool.false_eq_true, if_false, hdesc]

/-- C2, witness: the index of three 236-byte keys (a root over two leaves) is
well formed; the lookup of the third key descends into the right leaf and
returns its offset 474, and a key that was not inserted gives `-1`. -/
theorem find_record_spec_witness :
    well_formed (wide_run 3).world 2 3072 none none = true
    ∧ find_record (wide_run 3).world 2 (index_node 3072 [wide_key 50] [1024, 2048]) (wide_key 51)
        = Except.ok 474
    ∧ find_record (wide_run 3).world 2 (index_node 3072 [wide_key 50] [1024, 2048]) (wide_key 57)
        = Except.ok (-1) :=
  have hwf : well_formed (wide_run 3).world 2 3072 none none = true := by
    rw [wide_run_three]; decide!
  have hroot : Node.from_address (wide_run 3).world 3072
      = Except.ok (index_node 3072 [wide_key 50] [1024, 2048]) := by
    rw [wide_run_three]; decide!
  ⟨hwf,
   (find_record_spec (wide_run 3).world 2 3072 none none _ (wide_key 51) 2 hwf hroot
      (Nat.le_refl 2)).2.1 474 (by rw [wide_run_three]; decide!),
   (find_record_spec (wide_run 3).world 2 3072 none none _ (wide_key 57) 2 hwf hroot
      (Nat.le_refl 2)).2.2 (not_mem_entries _ _ (by rw [wide_run_three]; decide!))⟩

/-! ### The node codec -/

theorem le_bytes_length : ∀ (width v : Nat), (le_bytes width v).length = width := by
  intro width
  induction width with
  | zero => intro v; rfl
  | succ n ih => intro v; simp [le_bytes, ih]

theorem le_value_le_bytes : ∀ (width v : Nat), le_value (le_bytes width v) = v % 256 ^ width := by
  intro width
  induction width with
  | zero => intro v; simp [le_bytes, le_value, Nat.mod_one]
  | succ n ih =>
    intro v
    simp only [le_bytes, le_value, ih]
    rw [pow_succ, Nat.mul_comm (256 ^ n) 256, Nat.mod_mul]

theorem long_bytes_length (v : Int) : (long_bytes v).length = 8 := by
  simp [long_bytes, le_bytes_length]

theorem long_value_long_bytes (v : Int) (h : in_long v) : long_value (long_bytes v) = v := by
  obtain ⟨h1, h2⟩ := h
  simp only [long_value, long_bytes, le_value_le_bytes]
  norm_num at h1 h2 ⊢
  split_ifs with h <;> omega

theorem strlen_of_no_zero : ∀ k : Bytes, 0 ∉ k → strlen k = k.length := by
  intro k
  induction k with
  | nil => intro _; rfl
  | cons b bs ih =>
    intro h
    simp only [List.mem_cons, not_or] at h
    have hb : b ≠ 0 := fun hb => h.1 hb.symm
    simp [strlen, hb, ih h.2]

theorem c_str_copy_of_no_zero (k : Bytes) (h : 0 ∉ k) : c_str_copy k = k ++ [0] := by
  simp [c_str_copy, strlen_of_no_zero k h]

theorem read_bytes_append (pre x post : Bytes) :
    read_bytes (pre ++ x ++ post) pre.length x.length = Except.ok x := by
  simp [read_bytes, List.append_assoc]

theorem read_long_append (pre post : Bytes) (v : Int) (h : in_long v) :
    read_long (pre ++ long_bytes v ++ post) pre.length = Except.ok v := by
  have := read_bytes_append pre (long_bytes v) post
  rw [long_bytes_length] at this
  simp only [read_long, this, long_value_long_bytes v h]

theorem write_keys_length (key_len : Nat) :
    ∀ keys : List Bytes, (∀ k ∈ keys, k.length = key_len ∧ 0 ∉ k) →
      (write_keys keys).length = keys.length * (key_len + 1) := by
  intro keys
  induction keys with
  | nil => intro _; simp [write_keys]
  | cons k ks ih =>
    intro h
    have hk := h k (List.mem_cons_self k ks)
    simp only [write_keys, c_str_copy_of_no_zero k hk.2, List.length_append, List.length_cons,
      List.length_nil, hk.1, ih (fun k1 hk1 => h k1 (List.mem_cons_of_mem k hk1))]
    ring

theorem write_longs_length : ∀ vs : List Int, (write_longs vs).length = 8 * vs.length := by
  intro vs
  induction vs with
  | nil => rfl
  | cons v vs ih => simp [write_longs, long_bytes_length, ih]; ring

theorem read_keys_write_keys (key_len : Nat) (post : Bytes) :
    ∀ (keys : List Bytes) (pre : Bytes), (∀ k ∈ keys, k.length = key_len ∧ 0 ∉ k) →
      read_keys (pre ++ write_keys keys ++ post) key_len keys.length pre.length
        = Except.ok (keys, pre.length + keys.length * (key_len + 1)) := by
  intro keys
  induction keys with
  | nil => intro pre _; simp [read_keys]
  | cons k ks ih =>
    intro pre h
    have hk := h k (List.mem_cons_self k ks)
    have hrest := ih (pre ++ k ++ [0]) (fun k1 hk1 => h k1 (List.mem_cons_of_mem k hk1))
    have hbuf : pre ++ write_keys (k :: ks) ++ post
        = (pre ++ k ++ [0]) ++ write_keys ks ++ post := by
      simp [write_keys, c_str_copy_of_no_zero k hk.2, List.append_assoc]
    have hkey : read_bytes (pre ++ write_keys (k :: ks) ++ post) pre.length key_len
        = Except.ok k := by
      have := read_bytes_append pre k ([0] ++ write_keys ks ++ post)
      rw [hk.1] at this
      rw [← this]
      simp [write_keys, c_str_copy_of_no_zero k hk.2, List.append_assoc]
    have hoff : pre.length + key_len + 1 = (pre ++ k ++ [0]).length := by
      simp only [List.length_append, List.length_cons, List.length_nil, hk.1]
    simp only [List.length_cons, read_keys, hkey, hoff]
    rw [hbuf, hrest]
    simp only [List.length_append, List.length_cons, List.length_nil, hk.1, Except.ok.injEq,
      Prod.mk.injEq, true_and]
    ring

theorem read_longs_write_longs (post : Bytes) :
    ∀ (vs : List Int) (pre : Bytes), (∀ v ∈ vs, in_long v) →
      read_longs (pre ++ write_longs vs ++ post) vs.length pre.length = Except.ok vs := by
  intro vs
  induction vs with
  | nil => intro pre _; simp [read_longs]
  | cons v vs ih =>
    intro pre h
    have hv := h v (List.mem_cons_self v vs)
    have hrest := ih (pre ++ long_bytes v) (fun v1 hv1 => h v1 (List.mem_cons_of_mem v hv1))
    have hbuf : pre ++ write_longs (v :: vs) ++ post
        = (pre ++ long_bytes v) ++ write_longs vs ++ post := by
      simp [write_longs, List.append_assoc]
    have hval : read_long (pre ++ write_longs (v :: vs) ++ post) pre.length = Except.ok v := by
      have := read_long_append pre (write_longs vs ++ post) v hv
      rw [← this]
      simp [write_longs, List.append_assoc]
    have hoff : pre.length + 8 = (pre ++ long_bytes v).length := by
      simp only [List.length_append, long_bytes_length]
    simp only [List.length_cons, read_longs, hval, hoff]
    rw [hbuf, hrest]

theorem encode_node_length (key_len : Nat) (n : Node)
    (hkeys : ∀ k ∈ n.keys, k.length = key_len ∧ 0 ∉ k) :
    (encode_node n).length = 25 + n.keys.length * (key_len + 1) + 8 * (payload n).length := by
  simp only [encode_node, payload, List.length_append, List.length_cons, List.length_nil,
    long_bytes_length, write_keys_length key_len n.keys hkeys, write_longs_length]

/-- Decoding the bytes of a node gives its fields back. -/
theorem decode_encode (key_len : Nat) (n : Node)
    (hkeys : ∀ k ∈ n.keys, k.length = key_len ∧ 0 ∉ k)
    (hcount : (payload n).length = n.keys.length + (if n.is_leaf = false then 1 else 0))
    (hnext : in_long n.next) (hprev : in_long n.prev) (hpay : ∀ v ∈ payload n, in_long v)
    (hsize : in_long (n.keys.length : Int)) :
    decode_node key_len (encode_node n)
      = Except.ok (n.is_leaf, n.next, n.prev, n.keys, payload n) := by
  have e : encode_node n = [if n.is_leaf then 1 else 0] ++ long_bytes n.next ++ long_bytes n.prev
      ++ long_bytes (n.keys.length : Int) ++ write_keys n.keys ++ write_longs (payload n) := rfl
  have r0 : read_bytes (encode_node n) 0 1 = Except.ok [if n.is_leaf then 1 else 0] := by
    have := read_bytes_append [] [if n.is_leaf then 1 else 0]
      (long_bytes n.next ++ long_bytes n.prev ++ long_bytes (n.keys.length : Int)
        ++ write_keys n.keys ++ write_longs (payload n))
    rw [← this, e]
    simp only [List.nil_append, List.append_assoc, List.length_nil, List.length_cons]
  have r1 : read_long (encode_node n) 1 = Except.ok n.next := by
    have := read_long_append [if n.is_leaf then 1 else 0]
      (long_bytes n.prev ++ long_bytes (n.keys.length : Int)
        ++ write_keys n.keys ++ write_longs (payload n)) n.next hnext
    rw [← this, e]
    simp only [List.append_assoc, List.length_cons, List.length_nil]
  have r2 : read_long (encode_node n) 9 = Except.ok n.prev := by
    have := read_long_append ([if n.is_leaf then 1 else 0] ++ long_bytes n.next)
      (long_bytes (n.keys.length : Int) ++ write_keys n.keys ++ write_longs (payload n))
      n.prev hprev
    rw [← this, e]
    simp only [List.append_assoc, List.length_append, List.length_cons, List.length_nil,
      long_bytes_length]
  have r3 : read_long (encode_node n) 17 = Except.ok (n.keys.length : Int) := by
    have := read_long_append ([if n.is_leaf then 1 else 0] ++ long_bytes n.next
      ++ long_bytes n.prev) (write_keys n.keys ++ write_longs (payload n))
      (n.keys.length : Int) hsize
    rw [← this, e]
    simp only [List.append_assoc, List.length_append, List.length_cons, List.length_nil,
      long_bytes_length]
  have r4 : read_keys (encode_node n) key_len n.keys.length 25
      = Except.ok (n.keys, 25 + n.keys.length * (key_len + 1)) := by
    have := read_keys_write_keys key_len (write_longs (payload n)) n.keys
      ([if n.is_leaf then 1 else 0] ++ long_bytes n.next ++ long_bytes n.prev
        ++ long_bytes (n.keys.length : Int)) hkeys
    simp only [List.length_append, List.length_cons, List.length_nil, long_bytes_length] at this
    rw [← this, e]
  have r5 : read_longs (encode_node n) (payload n).length (25 + n.keys.length * (key_len + 1))
      = Except.ok (payload n) := by
    have := read_longs_write_longs [] (payload n)
      ([if n.is_leaf then 1 else 0] ++ long_bytes n.next ++ long_bytes n.prev
        ++ long_bytes (n.keys.length : Int) ++ write_keys n.keys) hpay
    simp only [List.length_append, List.length_cons, List.length_nil, long_bytes_length,
      write_keys_length key_len n.keys hkeys, List.append_nil] at this
    rw [← this, e]
  have hflag : decide ([if n.is_leaf then 1 else 0] ≠ [0]) = n.is_leaf := by
    cases n.is_leaf <;> simp
  have hcnt : (if n.is_leaf = false then ((n.keys.length : Int) + 1).toNat
      else n.keys.length) = (payload n).length := by
    rw [hcount]
    cases n.is_leaf <;> simp
  simp only [decode_node, r0, r1, r2, r3, Int.toNat_ofNat, r4, hflag, hcnt, r5]

theorem set_block_get (block : Bytes) :
    ∀ (file : List Bytes) (i : Nat), (set_block block file i)[i]? = some block := by
  intro file
  induction file with
  | nil =>
    intro i
    induction i with
    | zero => simp [set_block]
    | succ i ih => simpa [set_block] using ih
  | cons b rest ih =>
    intro i
    cases i with
    | zero => simp [set_block]
    | succ i => simpa [set_block] using ih i

/-- C4 (amended): for every node whose keys have exactly `key_len` bytes, none
of them zero, with one offset per key for a leaf and one more for an internal
node, whose `next`, `prev` and offsets fit a `long` and whose encoding
`25 + n * (key_len + 1) + 8 * |payload|` fits in a block, written at a block
address of its own or appended (`address = -1`) to a file that already holds
the metadata block: `read_from_disk` of what `write_to_disk` wrote yields the
same `is_leaf`, `next`, `prev`, keys and payload. -/
theorem node_round_trip (w : World) (n : Node)
    (hkeys : ∀ k ∈ n.keys, k.length = w.key_len ∧ 0 ∉ k)
    (hcount : (payload n).length = n.keys.length + (if n.is_leaf = false then 1 else 0))
    (hfit : 25 + n.keys.length * (w.key_len + 1) + 8 * (payload n).length ≤ block_size)
    (hnext : in_long n.next) (hprev : in_long n.prev) (hpay : ∀ v ∈ payload n, in_long v)
    (haddr : n.address = -1 ∨ (0 < n.address ∧ n.address.toNat % block_size = 0))
    (hfile : w.index_file ≠ []) :
    ∃ m w1 r, write_to_disk n w = Res.ok m w1 ∧ read_from_disk w1 m = Except.ok r
      ∧ r.is_leaf = n.is_leaf ∧ r.next = n.next ∧ r.prev = n.prev ∧ r.keys = n.keys
      ∧ payload r = payload n := by
  have hlen : ¬ block_size < (encode_node n).length := by
    rw [encode_node_length w.key_len n hkeys]
    omega
  have hsize : in_long (n.keys.length : Int) := by
    have : n.keys.length ≤ 1024 := by
      have : n.keys.length ≤ n.keys.length * (w.key_len + 1) := Nat.le_mul_of_pos_right _ (by omega)
      simp only [block_size] at hfit
      omega
    constructor <;> norm_num <;> omega
  have hflen : 0 < w.index_file.length := List.length_pos.2 hfile
  obtain ⟨a, ha, hpos, halign⟩ : ∃ a : Int,
      (if n.address = -1 then (file_length w.index_file : Int) else n.address) = a
        ∧ 0 < a ∧ a.toNat % block_size = 0 := by
    rcases haddr with h | ⟨h1, h2⟩
    · refine ⟨(file_length w.index_file : Int), by simp [h], ?_, ?_⟩
      · simp only [file_length, block_size]
        omega
      · rw [Int.toNat_ofNat]
        exact Nat.mul_mod_right _ _
    · have hne : n.address ≠ -1 := by omega
      exact ⟨n.address, by simp [hne], h1, h2⟩
  have hdec := decode_encode w.key_len n hkeys hcount hnext hprev hpay hsize
  have hwrite : write_to_disk n w = Res.ok (flush_node { n with address := a })
      { w with index_file := set_block (encode_node n) w.index_file (a.toNat / block_size) } := by
    simp only [write_to_disk, ha, hlen, if_false, write_block, not_lt.2 (le_of_lt hpos), halign,
      ne_eq, not_true_eq_false]
  have hblock : read_block (set_block (encode_node n) w.index_file (a.toNat / block_size)) a
      = Except.ok (encode_node n) := by
    simp only [read_block, halign, ne_eq, not_true_eq_false, if_false, set_block_get]
  have hna : ¬ a ≤ 0 := not_le.2 hpos
  cases hleaf : n.is_leaf with
  | false =>
    refine ⟨_, _, { flush_node { n with address := a } with
      is_leaf := false, next := n.next, prev := n.prev, keys := n.keys,
      children := payload n }, hwrite, ?_, ?_⟩
    · simp only [read_from_disk, flush_node, hna, if_false, hblock, hdec, hleaf, if_true]
    · simp [payload, hleaf]
  | true =>
    refine ⟨_, _, { flush_node { n with address := a } with
      is_leaf := true, next := n.next, prev := n.prev, keys := n.keys,
      pointers := payload n }, hwrite, ?_, ?_⟩
    · simp only [read_from_disk, flush_node, hna, if_false, hblock, hdec, hleaf]
      simp
    · simp [payload, hleaf]

/-- C4, witness: a leaf of two three-byte keys appended to a file that holds
the metadata block reads back as written. -/
theorem node_round_trip_witness :
    ∃ m w1 r, write_to_disk (Node.multi true [[65, 66, 67], [70, 71, 72]] [5, -7] [])
        { start_world data_name [] with index_file := [header_bytes data_name 3 44 1024],
                                        key_len := 3 } = Res.ok m w1
      ∧ read_from_disk w1 m = Except.ok r
      ∧ r.is_leaf = true ∧ r.next = -1 ∧ r.prev = -1 ∧ r.keys = [[65, 66, 67], [70, 71, 72]]
      ∧ payload r = [5, -7] :=
  node_round_trip
    { start_world data_name [] with index_file := [header_bytes data_name 3 44 1024],
                                    key_len := 3 }
    (Node.multi true [[65, 66, 67], [70, 71, 72]] [5, -7] [])
    (by decide) (by decide) (by decide) (by unfold in_long; decide) (by unfold in_long; decide)
    (by unfold in_long; decide) (Or.inl rfl) (by decide)

/-- C4, counterexample: a leaf whose one key has exactly `key_len = 3` bytes,
the second of them zero.  `write_to_disk` copies the key as a C string, two
bytes instead of four; read back, the key is `[65, 0, 7]` (its third byte is
the first byte of the pointer that follows) and the pointer runs past the
bytes that were written. -/
theorem round_trip_fails_on_zero_byte :
    write_to_disk (Node.multi true [[65, 0, 66]] [7] [])
        { start_world data_name [] with index_file := [header_bytes data_name 3 44 1024],
                                        key_len := 3 }
      = Res.ok (flush_node { Node.multi true [[65, 0, 66]] [7] [] with address := 1024 })
          { start_world data_name [] with
            index_file := [header_bytes data_name 3 44 1024,
                           encode_node (Node.multi true [[65, 0, 66]] [7] [])],
            key_len := 3 }
    ∧ read_keys (encode_node (Node.multi true [[65, 0, 66]] [7] [])) 3 1 25
        = Except.ok ([[65, 0, 7]], 29)
    ∧ read_from_disk
        { start_world data_name [] with
          index_file := [header_bytes data_name 3 44 1024,
                         encode_node (Node.multi true [[65, 0, 66]] [7] [])],
          key_len := 3 }
        (flush_node { Node.multi true [[65, 0, 66]] [7] [] with address := 1024 })
      = Except.error Fault.indeterminate := by
  decide!

/-! ### The commands -/

theorem eng_bind_apply {α β : Type} (m : Eng α) (f : α → Eng β) (w : World) :
    (m >>= f) w = match m w with
      | Res.ok a w1 => f a w1
      | Res.fault e w1 => Res.fault e w1 := rfl

theorem eng_pure_apply {α : Type} (a : α) (w : World) : (pure a : Eng α) w = Res.ok a w := rfl

theorem normalize_key_length (key_len : Nat) (s : Bytes) :
    (normalize_key key_len s).length = key_len := by
  unfold normalize_key
  split_ifs with h
  · simp [List.length_take]; omega
  · simp; omega

theorem normalize_key_long (key_len : Nat) (s : Bytes) (h : key_len ≤ s.length) :
    normalize_key key_len s = s.take key_len := by
  unfold normalize_key
  split_ifs with h1
  · rfl
  · have : key_len = s.length := by omega
    simp [this]

theorem normalize_key_short (key_len : Nat) (s : Bytes) (h : s.length < key_len) :
    normalize_key key_len s = s ++ List.replicate (key_len - s.length) 32 := by
  unfold normalize_key
  split_ifs with h1
  · omega
  · rfl

/-- C6: `find_index` normalizes the search key before descending.  With the
globals as `initialize_bplus_tree` sets them and the root as `Node(root_address)`
reads it, the key passed to `find_record` has exactly `key_len` bytes: the
first `key_len` bytes of `s` when `s` has that many, and `s` followed by
`key_len - |s|` blanks otherwise; what `find_index` prints is decided by that
call. -/
theorem find_index_normalizes (fuel : Nat) (s : Bytes) (w w1 : World) (root : Node)
    (hinit : initialize_bplus_tree w = Res.ok () w1)
    (hroot : Node.from_address w1 w1.root_address = Except.ok root) :
    ∃ key : Bytes, key.length = w1.key_len
      ∧ (w1.key_len ≤ s.length → key = s.take w1.key_len)
      ∧ (s.length < w1.key_len → key = s ++ List.replicate (w1.key_len - s.length) 32)
      ∧ find_index fuel s w =
          match find_record w1 fuel root key with
          | Except.error e => Res.fault e w1
          | Except.ok key_offset =>
            Res.ok (if key_offset = -1 then Message.cannot_find
                    else Message.record (print_record_at_offset w1 key_offset)) w1 := by
  refine ⟨normalize_key w1.key_len s, normalize_key_length _ _, normalize_key_long _ _,
    normalize_key_short _ _, ?_⟩
  simp only [find_index, eng_bind_apply, hinit, lift_read, hroot, get_world]
  cases find_record w1 fuel root (normalize_key w1.key_len s) with
  | error e => rfl
  | ok off =>
    simp only
    split_ifs <;> rfl

theorem initialize_keeps_files (w w1 : World) (h : initialize_bplus_tree w = Res.ok () w1) :
    w1.index_file = w.index_file ∧ w1.data_files = w.data_files := by
  unfold initialize_bplus_tree at h
  split at h
  · exact absurd h (by simp)
  · split at h
    · simp only [Res.ok.injEq, true_and] at h
      subst h
      exact ⟨rfl, rfl⟩
    · exact absurd h (by simp)

/-- C5: duplicate rejection is atomic.  In a well-formed index (of height at
most `h`, with fuel for it) that stores the first `key_len` bytes of the
record with a data offset `p` other than `-1`, `insert_record` reports that
the key already exists and leaves the index file (node blocks and metadata
block) and the data files as they were; only the globals are set, from the
metadata block. -/
theorem insert_record_duplicate (fuel h : Nat) (record : Bytes) (p : Int) (w w1 : World)
    (hinit : initialize_bplus_tree w = Res.ok () w1)
    (hwf : well_formed w1 h w1.root_address none none = true)
    (hlen : w1.key_len ≤ record.length)
    (hmem : (record.take w1.key_len, p) ∈ subtree_entries w1 h w1.root_address)
    (hp : p ≠ -1) (hfuel : h ≤ fuel) :
    insert_record fuel record w = Res.ok Message.already_exists w1
      ∧ w1.index_file = w.index_file ∧ w1.data_files = w.data_files := by
  refine ⟨?_, initialize_keeps_files w w1 hinit⟩
  obtain ⟨root, hroot⟩ := well_formed_from_address w1 h _ _ _ hwf
  have hfind := (find_record_aux w1 (record.take w1.key_len) h _ none none root fuel hwf hroot
    hfuel).1 p hmem
  have hlen1 : ¬ record.length < w1.key_len := by omega
  simp only [insert_record, eng_bind_apply, hinit, get_world, hlen1, if_false, lift_read, hroot,
    hfind, ne_eq, hp, not_false_eq_true, if_true, eng_pure_apply]

/-! ### What a split returns -/

/-- A completed sequence completed in both parts. -/
theorem bind_ok_inv {α β : Type} (m : Eng α) (f : α → Eng β) (w w2 : World) (b : β)
    (h : (m >>= f) w = Res.ok b w2) : ∃ a w1, m w = Res.ok a w1 ∧ f a w1 = Res.ok b w2 := by
  rw [eng_bind_apply] at h
  split at h
  · rename_i a w1 hm
    exact ⟨a, w1, hm, h⟩
  · exact absurd h (by simp)

/-- C6, witness (scenario S5): with `key_len = 5` and the one stored key
`HI` followed by three blanks, `find_index` on `HI` pads the key, finds it and
prints the record; on `HIXXX` it reports that the record cannot be found. -/
theorem find_index_normalizes_witness :
    find_index 2 [72, 73] hi_run.world
        = Res.ok (Message.record [72, 73, 32, 32, 32, 32, 114, 101, 115, 116]) hi_world
    ∧ find_index 2 [72, 73, 88, 88, 88] hi_run.world = Res.ok Message.cannot_find hi_world := by
  have hinit : initialize_bplus_tree hi_run.world = Res.ok () hi_world := by
    rw [hi_run_eq]; decide!
  have hroot : Node.from_address hi_world hi_world.root_address
      = Except.ok (leaf_node 1024 [[72, 73, 32, 32, 32]] [0] (-1) (-1)) := by decide!
  constructor
  · obtain ⟨key, _, _, hshort, hfind⟩ :=
      find_index_normalizes 2 [72, 73] hi_run.world hi_world _ hinit hroot
    rw [hfind, hshort (by decide)]
    decide!
  · obtain ⟨key, _, hlong, _, hfind⟩ :=
      find_index_normalizes 2 [72, 73, 88, 88, 88] hi_run.world hi_world _ hinit hroot
    rw [hfind, hlong (by decide)]
    decide!

/-- C5, witness (scenario S4): after the records `A` to `Z` were indexed with
`key_len = 1`, inserting a record that starts with `F` is rejected and the
files stay as they were. -/
theorem insert_record_duplicate_witness :
    insert_record 1 [70, 32, 97, 103, 97, 105, 110] (letter_run alphabet).world
        = Res.ok Message.already_exists (letter_world alphabet)
    ∧ (letter_world alphabet).index_file = (letter_run alphabet).world.index_file
    ∧ (letter_world alphabet).data_files = (letter_run alphabet).world.data_files :=
  insert_record_duplicate 1 1 [70, 32, 97, 103, 97, 105, 110] 10 (letter_run alphabet).world
    (letter_world alphabet) (by rw [letter_run_alphabet]; decide!) (by decide!) (by decide)
    (by decide!) (by decide) (Nat.le_refl 1)

/-- C3, the code at the failing input: over the keys `A` and `C`, listing
from `B` prints nothing, although `C` is stored and is `>= B`; the test of
line 580 asks for `target < keys[i-1]` and `target > keys[i]`, which no
position of an ascending leaf satisfies.  The scenario S3 that the claim
names does hold: over `A` to `Z`, listing ten records from `K` prints `K` to
`T`. -/
theorem list_records_misses_absent_start :
    list_records 2 [66] 10 (letter_run [65, 67]).world = Res.ok [] (letter_world [65, 67])
    ∧ (list_records 2 [75] 10 (letter_run alphabet).world).value
        = some [(20, [75]), (22, [76]), (24, [77]), (26, [78]), (28, [79]), (30, [80]),
                (32, [81]), (34, [82]), (36, [83]), (38, [84])] := by
  rw [letter_run_ac, letter_run_alphabet]
  decide!

/-- C1, the code at the failing input: after three inserts of 236-byte keys
(`degree = 1`) the third key is found at its offset 474.  The fourth insert
does not complete, and on the index file as it is then neither the third key
nor the fourth is found: both sit in the new leaf at 4096, which no internal
node points to. -/
theorem find_fails_after_leaf_split :
    find_from_root (wide_run 3).world 2 (wide_key 51) = Except.ok 474
    ∧ (wide_run 4).failure = some Fault.out_of_range
    ∧ find_from_root (wide_run 4).world 2 (wide_key 51) = Except.ok (-1)
    ∧ find_from_root (wide_run 4).world 2 (wide_key 52) = Except.ok (-1) := by
  rw [wide_run_three, wide_run_four]
  decide!

theorem int_bytes_length (v : Nat) : (int_bytes v).length = 4 := by
  simp [int_bytes, le_bytes_length]

theorem int_value_int_bytes (v : Nat) (h : v < 2 ^ 32) : int_value (int_bytes v) = v := by
  simp only [int_value, int_bytes, le_value_le_bytes]
  norm_num at h ⊢
  omega

theorem degree_of_pos (keylen : Nat) (h : 1 ≤ degree_of keylen) : keylen ≤ 479 := by
  by_contra hc
  have : degree_of keylen = 0 := by
    unfold degree_of block_size
    apply Nat.div_eq_of_lt
    omega
  omega

theorem degree_of_le (keylen : Nat) : degree_of keylen ≤ 974 := by
  unfold degree_of block_size
  exact Nat.div_le_self _ _

theorem padded_no_zero (name : Bytes) (h : 0 ∉ name) :
    0 ∉ name ++ List.replicate (256 - name.length) 48 := by
  intro hm
  rcases List.mem_append.1 hm with h1 | h1
  · exact h h1
  · have := (List.mem_replicate.1 h1).2
    omega

theorem padded_length (name : Bytes) (h : name.length ≤ 256) :
    (name ++ List.replicate (256 - name.length) 48).length = 256 := by
  simp only [List.length_append, List.length_replicate]
  omega

theorem read_bytes_at (pre x post : Bytes) (offset len : Nat) (ho : pre.length = offset)
    (hl : x.length = len) : read_bytes (pre ++ x ++ post) offset len = Except.ok x := by
  subst ho
  subst hl
  exact read_bytes_append pre x post

/-- The block `create_index` writes at address 0 is `header_bytes`. -/
theorem create_index_header_eq (name : Bytes) (keylen : Nat) (root : Int) (update : Bool)
    (w : World) (hlen : name.length ≤ 256) (hzero : 0 ∉ name) :
    create_index_header name keylen root update w = Res.ok ()
      { (if root = -1 then { w with root_address := 1024 } else w) with
        index_file :=
          if update then
            set_block (header_bytes name keylen (degree_of keylen) (if root = -1 then 1024 else root))
              w.index_file 0
          else [header_bytes name keylen (degree_of keylen) (if root = -1 then 1024 else root)] } := by
  simp only [create_index_header, not_lt.2 hlen, if_false,
    c_str_copy_of_no_zero _ (padded_no_zero name hzero), header_bytes]

/-- The fields of a metadata block: the padded name and its zero byte in bytes
0 to 256, `key_len` from byte 257, `degree` from byte 261, the root address
from byte 265. -/
theorem header_fields (name : Bytes) (keylen degree : Nat) (root : Int)
    (hlen : name.length ≤ 256) :
    read_bytes (header_bytes name keylen degree root) 0 256
        = Except.ok (name ++ List.replicate (256 - name.length) 48)
    ∧ read_bytes (header_bytes name keylen degree root) 256 1 = Except.ok [0]
    ∧ read_bytes (header_bytes name keylen degree root) 0 257
        = Except.ok (name ++ List.replicate (256 - name.length) 48 ++ [0])
    ∧ read_bytes (header_bytes name keylen degree root) 257 4 = Except.ok (int_bytes keylen)
    ∧ read_bytes (header_bytes name keylen degree root) 261 4 = Except.ok (int_bytes degree)
    ∧ read_bytes (header_bytes name keylen degree root) 265 8 = Except.ok (long_bytes root) := by
  have hp := padded_length name hlen
  refine ⟨?_, ?_, ?_, ?_, ?_, ?_⟩
  · have e : header_bytes name keylen degree root
        = [] ++ (name ++ List.replicate (256 - name.length) 48)
          ++ ([0] ++ int_bytes keylen ++ int_bytes degree ++ long_bytes root) := by
      simp [header_bytes, List.append_assoc]
    rw [e]
    exact read_bytes_at _ _ _ _ _ rfl hp
  · have e : header_bytes name keylen degree root
        = (name ++ List.replicate (256 - name.length) 48) ++ [0]
          ++ (int_bytes keylen ++ int_bytes degree ++ long_bytes root) := by
      simp [header_bytes, List.append_assoc]
    rw [e]
    exact read_bytes_at _ _ _ _ _ hp rfl
  · have e : header_bytes name keylen degree root
        = [] ++ (name ++ List.replicate (256 - name.length) 48 ++ [0])
          ++ (int_bytes keylen ++ int_bytes degree ++ long_bytes root) := by
      simp [header_bytes, List.append_assoc]
    rw [e]
    exact read_bytes_at _ _ _ _ _ rfl (by simp only [List.length_append, hp, List.length_singleton])
  · have e : header_bytes name keylen degree root
        = (name ++ List.replicate (256 - name.length) 48 ++ [0]) ++ int_bytes keylen
          ++ (int_bytes degree ++ long_bytes root) := by
      simp [header_bytes, List.append_assoc]
    rw [e]
    exact read_bytes_at _ _ _ _ _ (by simp only [List.length_append, hp, List.length_singleton])
      (int_bytes_length _)
  · have e : header_bytes name keylen degree root
        = (name ++ List.replicate (256 - name.length) 48 ++ [0] ++ int_bytes keylen)
          ++ int_bytes degree ++ long_bytes root := by
      simp [header_bytes, List.append_assoc]
    rw [e]
    exact read_bytes_at _ _ _ _ _
      (by simp only [List.length_append, hp, List.length_singleton, int_bytes_length])
      (int_bytes_length _)
  · have e : header_bytes name keylen degree root
        = (name ++ List.replicate (256 - name.length) 48 ++ [0] ++ int_bytes keylen
            ++ int_bytes degree) ++ long_bytes root ++ [] := by
      simp [header_bytes, List.append_assoc]
    rw [e]
    exact read_bytes_at _ _ _ _ _
      (by simp only [List.length_append, hp, List.length_singleton, int_bytes_length])
      (long_bytes_length _)

/-- What `initialize_bplus_tree` sets from a metadata block. -/
theorem initialize_header (name : Bytes) (keylen degree : Nat) (root : Int) (w : World)
    (rest : List Bytes) (hlen : name.length ≤ 256) (hkey : keylen < 2 ^ 32)
    (hdeg : degree < 2 ^ 32) (hroot : in_long root)
    (hfile : w.index_file = header_bytes name keylen degree root :: rest) :
    initialize_bplus_tree w = Res.ok ()
      { w with
        data_filename :=
          (match find_sub [48, 48, 48, 48]
              (name ++ List.replicate (256 - name.length) 48 ++ [0]) with
            | some end_idx => (name ++ List.replicate (256 - name.length) 48 ++ [0]).take end_idx
            | none => name ++ List.replicate (256 - name.length) 48 ++ [0]),
        key_len := keylen, degree := degree, root_address := root } := by
  obtain ⟨_, _, h0, h1, h2, h3⟩ := header_fields name keylen degree root hlen
  have hblock : read_block w.index_file 0 = Except.ok (header_bytes name keylen degree root) := by
    simp [read_block, hfile]
  have h3l : read_long (header_bytes name keylen degree root) 265 = Except.ok root := by
    simp only [read_long, h3, long_value_long_bytes root hroot]
  simp only [initialize_bplus_tree, hblock, h0, h1, h2, h3l, int_value_int_bytes keylen hkey,
    int_value_int_bytes degree hdeg]

/-- A name of at most 252 bytes that does not hold `0000` and does not end in
`0` is read back from the metadata block. -/
theorem name_reads_back_of (pad : Nat) (hpad : 4 ≤ pad) :
    ∀ name : Bytes, find_sub [48, 48, 48, 48] name = none → name.getLast? ≠ some 48 →
      find_sub [48, 48, 48, 48] (name ++ List.replicate pad 48 ++ [0]) = some name.length := by
  obtain ⟨k, rfl⟩ : ∃ k, pad = k + 4 := ⟨pad - 4, by omega⟩
  intro name
  induction name with
  | nil =>
    intro _ _
    simp [List.replicate_succ, find_sub, List.isPrefixOf]
  | cons b rest ih =>
    intro hfind hlast
    have hsplit : List.isPrefixOf [48, 48, 48, 48] (b :: rest) = false
        ∧ find_sub [48, 48, 48, 48] rest = none := by
      simp only [find_sub] at hfind
      split_ifs at hfind with hp
      exact ⟨Bool.eq_false_iff.2 hp, by simpa using hfind⟩
    have hrest : rest.getLast? ≠ some 48 := by
      cases rest with
      | nil => simp
      | cons c rest2 => simpa [List.getLast?_cons_cons] using hlast
    have hnp : List.isPrefixOf [48, 48, 48, 48]
        (b :: (rest ++ List.replicate (k + 4) 48 ++ [0])) = false := by
      have hp := hsplit.1
      match rest, hp, hlast with
      | [], _, hl => simp [List.isPrefixOf] at hl ⊢; omega
      | [c], _, hl => simp [List.isPrefixOf] at hl ⊢; omega
      | [c, d], _, hl => simp [List.isPrefixOf] at hl ⊢; omega
      | c :: d :: e :: rest2, hp, _ => simpa [List.isPrefixOf] using hp
    have e : b :: rest ++ List.replicate (k + 4) 48 ++ [0]
        = b :: (rest ++ List.replicate (k + 4) 48 ++ [0]) := rfl
    rw [e, find_sub, hnp, ih hsplit.2 hrest]
    simp

theorem set_block_zero (block : Bytes) (file : List Bytes) :
    ∃ rest, set_block block file 0 = block :: rest := by
  cases file with
  | nil => exact ⟨[], rfl⟩
  | cons b rest => exact ⟨rest, rfl⟩

/-- C12 (amended): the metadata block round trip.  For every data file name of
at most 252 bytes, none of them zero, that does not hold `0000` and does not
end in `0`, every `key_len` with `degree >= 1` and every root address other
than `-1` that fits a `long`: `initialize_bplus_tree` on the block that
`create_index` wrote (in either form) sets `data_filename` to that name,
`key_len` to that length, `degree` to `(block_size - 50) / (2 * (key_len + 8))`
and `root_address` to that address. -/
theorem header_round_trip (name : Bytes) (keylen : Nat) (root : Int) (update : Bool) (w : World)
    (hlen : name.length ≤ 252) (hzero : 0 ∉ name)
    (hfour : find_sub [48, 48, 48, 48] name = none) (hlast : name.getLast? ≠ some 48)
    (hdeg : 1 ≤ degree_of keylen) (hroot : in_long root) (hne : root ≠ -1) :
    ∃ w1 w2, create_index_header name keylen root update w = Res.ok () w1
      ∧ initialize_bplus_tree w1 = Res.ok () w2
      ∧ w2.data_filename = name ∧ w2.key_len = keylen ∧ w2.degree = degree_of keylen
      ∧ w2.root_address = root := by
  have hlen1 : name.length ≤ 256 := by omega
  have hback := name_reads_back_of (256 - name.length) (by omega) name hfour hlast
  have hk : keylen < 2 ^ 32 := by
    have := degree_of_pos keylen hdeg
    norm_num
    omega
  have hd : degree_of keylen < 2 ^ 32 := by
    have := degree_of_le keylen
    norm_num
    omega
  obtain ⟨rest, hrest⟩ : ∃ rest,
      (if update then set_block (header_bytes name keylen (degree_of keylen) root) w.index_file 0
        else [header_bytes name keylen (degree_of keylen) root])
      = header_bytes name keylen (degree_of keylen) root :: rest := by
    cases update with
    | false => exact ⟨[], rfl⟩
    | true => exact set_block_zero _ _
  refine ⟨_, _, create_index_header_eq name keylen root update w hlen1 hzero,
    initialize_header name keylen (degree_of keylen) root _ rest hlen1 hk hd hroot ?_, ?_, rfl,
    rfl, rfl⟩
  · simp only [hne, if_false, hrest]
  · simp only [hback]
    rw [List.append_assoc]
    exact List.take_left' rfl

/-- C12, witness: the name `data`, `key_len = 5` and the root address 2048
written over the metadata block of the index of scenario S5. -/
theorem header_round_trip_witness :
    ∃ w1 w2, create_index_header data_name 5 2048 true hi_world = Res.ok () w1
      ∧ initialize_bplus_tree w1 = Res.ok () w2
      ∧ w2.data_filename = data_name ∧ w2.key_len = 5 ∧ w2.degree = degree_of 5
      ∧ w2.root_address = 2048 :=
  header_round_trip data_name 5 2048 true hi_world (by decide) (by decide) (by decide)
    (by decide) (by decide) (by constructor <;> norm_num) (by decide)

/-- C12, counterexample: the name `data0` has five bytes and does not hold
`0000`, but padded with `0` it does, from its last byte on: the name read back
is `data`; `key_len`, `degree` and the root address do come back. -/
theorem header_drops_trailing_zero :
    data0_name.length ≤ 256 ∧ find_sub [48, 48, 48, 48] data0_name = none
    ∧ Eng.bind (create_index_header data0_name 5 2048 true) (fun _ => initialize_bplus_tree)
        hi_world
      = Res.ok () { hi_world with
          index_file := [header_bytes data0_name 5 37 2048,
                         encode_node (leaf_node 1024 [[72, 73, 32, 32, 32]] [0] (-1) (-1))],
          root_address := 2048, data_filename := data_name }
    ∧ data_name ≠ data0_name := by
  decide!

/-- C13 (amended): the layout of the metadata block.  For every file name of
at most 256 bytes, none of them zero, block 0 as `create_index` writes it
holds the name padded with `0` in bytes 0 to 255, a zero byte at 256 (the
terminator of the C string), `key_len` as four little-endian bytes at 257 to
260, `degree` at 261 to 264 and the root address as eight little-endian bytes
at 265 to 272. -/
theorem header_layout (name : Bytes) (keylen : Nat) (root : Int) (update : Bool) (w : World)
    (hlen : name.length ≤ 256) (hzero : 0 ∉ name) :
    ∃ w1 block, create_index_header name keylen root update w = Res.ok () w1
      ∧ read_block w1.index_file 0 = Except.ok block
      ∧ read_bytes block 0 256 = Except.ok (name ++ List.replicate (256 - name.length) 48)
      ∧ read_bytes block 256 1 = Except.ok [0]
      ∧ read_bytes block 257 4 = Except.ok (int_bytes keylen)
      ∧ read_bytes block 261 4 = Except.ok (int_bytes (degree_of keylen))
      ∧ read_bytes block 265 8 = Except.ok (long_bytes (if root = -1 then 1024 else root)) := by
  obtain ⟨h0, h1, _, h2, h3, h4⟩ := header_fields name keylen (degree_of keylen)
    (if root = -1 then 1024 else root) hlen
  refine ⟨_, _, create_index_header_eq name keylen root update w hlen hzero, ?_, h0, h1, h2, h3,
    h4⟩
  cases update with
  | false => simp [read_block]
  | true =>
    obtain ⟨rest, hrest⟩ := set_block_zero
      (header_bytes name keylen (degree_of keylen) (if root = -1 then 1024 else root)) w.index_file
    simp [read_block, hrest]

/-- C13, witness: the metadata block of scenario S5 (`create` on `data` with
`key_len = 5`). -/
theorem header_layout_witness :
    ∃ w1 block, create_index_header data_name 5 (-1) false (start_world data_name hi_data)
        = Res.ok () w1
      ∧ read_block w1.index_file 0 = Except.ok block
      ∧ read_bytes block 0 256 = Except.ok (data_name ++ List.replicate (256 - data_name.length) 48)
      ∧ read_bytes block 256 1 = Except.ok [0]
      ∧ read_bytes block 257 4 = Except.ok (int_bytes 5)
      ∧ read_bytes block 261 4 = Except.ok (int_bytes (degree_of 5))
      ∧ read_bytes block 265 8 = Except.ok (long_bytes (if (-1 : Int) = -1 then 1024 else -1)) :=
  header_layout data_name 5 (-1) false (start_world data_name hi_data) (by decide) (by decide)

/-- C13, counterexample: in the metadata block of scenario S5 the four bytes
from 256 on are the terminator of the name and the first three bytes of
`key_len`; `key_len = 5` is at 257, `degree = 37` at 261 and the root address
1024 at 265. -/
theorem key_len_not_at_256 :
    read_block hi_run.world.index_file 0 = Except.ok (header_bytes data_name 5 37 1024)
    ∧ read_bytes (header_bytes data_name 5 37 1024) 256 4 = Except.ok [0, 5, 0, 0]
    ∧ int_bytes 5 = [5, 0, 0, 0]
    ∧ read_bytes (header_bytes data_name 5 37 1024) 257 4 = Except.ok (int_bytes 5)
    ∧ read_bytes (header_bytes data_name 5 37 1024) 260 4 = Except.ok [0, 37, 0, 0]
    ∧ read_bytes (header_bytes data_name 5 37 1024) 261 4 = Except.ok (int_bytes 37)
    ∧ read_bytes (header_bytes data_name 5 37 1024) 264 8 = Except.ok [0, 0, 4, 0, 0, 0, 0, 0]
    ∧ read_bytes (header_bytes data_name 5 37 1024) 265 8 = Except.ok (long_bytes 1024) := by
  rw [hi_run_eq]
  decide!

/-- C17: a record shorter than `key_len` is rejected.  With the globals as
`initialize_bplus_tree` sets them from the metadata block, `insert_record` on
a record of fewer than `key_len` bytes prints that the key is too short and
returns; the index file and the data files are as they were. -/
theorem insert_record_too_short (fuel : Nat) (record : Bytes) (w w1 : World)
    (hinit : initialize_bplus_tree w = Res.ok () w1)
    (hlen : record.length < w1.key_len) :
    insert_record fuel record w = Res.ok Message.too_short w1
      ∧ w1.index_file = w.index_file ∧ w1.data_files = w.data_files := by
  refine ⟨?_, initialize_keeps_files w w1 hinit⟩
  simp only [insert_record, eng_bind_apply, hinit, get_world, hlen, if_true, eng_pure_apply]

/-- C17, witness (scenario S5): with `key_len = 5`, inserting the record `HI`
is rejected and nothing is written. -/
theorem insert_record_too_short_witness :
    insert_record 8 [72, 73] hi_run.world = Res.ok Message.too_short hi_world
      ∧ hi_world.index_file = hi_run.world.index_file
      ∧ hi_world.data_files = hi_run.world.data_files :=
  insert_record_too_short 8 [72, 73] hi_run.world hi_world (by rw [hi_run_eq]; decide!)
    (by decide)

/-! ### Insertion into a leaf -/

theorem str_gt_eq_lt (a b : Bytes) : str_gt a b = str_lt b a := by
  unfold str_gt str_lt
  rw [str_compare_swap a b]
  cases str_compare a b <;> rfl

/-- From `a <= b` and `b <= a`. -/
theorem str_le_antisymm {a b : Bytes} (h1 : str_lt a b = false) (h2 : str_lt b a = false) :
    a = b := by
  apply (str_compare_eq_iff a b).1
  unfold str_lt at h1 h2
  rw [str_compare_swap a b] at h2
  cases h : str_compare a b with
  | lt => rw [h] at h1; exact absurd h1 (by decide)
  | eq => rfl
  | gt => rw [h] at h2; exact absurd h2 (by decide)

theorem first_index_some {α : Type} (p : α → Bool) :
    ∀ (l : List α) (i : Nat), first_index p l = some i →
      i < l.length ∧ (∀ x ∈ l.take i, p x = false) ∧ ∃ y, l[i]? = some y ∧ p y = true := by
  intro l
  induction l with
  | nil => intro i h; simp [first_index] at h
  | cons a rest ih =>
    intro i h
    simp only [first_index] at h
    split_ifs at h with hp
    · simp only [Option.some.injEq] at h
      subst h
      exact ⟨by simp, by simp, a, by simp, hp⟩
    · simp only [Option.map_eq_some'] at h
      obtain ⟨j, hj, rfl⟩ := h
      obtain ⟨h1, h2, y, h3, h4⟩ := ih j hj
      refine ⟨by simp; omega, ?_, y, by simpa using h3, h4⟩
      intro x hx
      simp only [List.take_succ_cons, List.mem_cons] at hx
      rcases hx with rfl | hx
      · simpa using hp
      · exact h2 x hx

theorem first_index_none {α : Type} (p : α → Bool) :
    ∀ l : List α, first_index p l = none → ∀ x ∈ l, p x = false := by
  intro l
  induction l with
  | nil => intro _ x hx; simp at hx
  | cons a rest ih =>
    intro h x hx
    simp only [first_index] at h
    split_ifs at h with hp
    simp only [Option.map_eq_none'] at h
    simp only [List.mem_cons] at hx
    rcases hx with rfl | hx
    · simpa using hp
    · exact ih h x hx

theorem ascending_le_cons (a : Bytes) (t : List Bytes) :
    ascending_le (a :: t) = true
      ↔ (∀ b, t.head? = some b → str_lt b a = false) ∧ ascending_le t = true := by
  cases t with
  | nil => simp [ascending_le]
  | cons b rest => simp [ascending_le]

/-- The first key of an ascending list is a lower bound of the others. -/
theorem ascending_le_head (a : Bytes) :
    ∀ t : List Bytes, ascending_le (a :: t) = true → ∀ x ∈ t, str_lt x a = false := by
  intro t
  induction t generalizing a with
  | nil => intro _ x hx; simp at hx
  | cons b rest ih =>
    intro h x hx
    simp only [ascending_le, Bool.and_eq_true, Bool.not_eq_true'] at h
    simp only [List.mem_cons] at hx
    rcases hx with rfl | hx
    · exact h.1
    · exact str_le_trans h.1 (ih b h.2 x hx)

/-- The last key of an ascending list is an upper bound of all. -/
theorem ascending_le_last :
    ∀ (l : List Bytes) (last : Bytes), ascending_le l = true → l.getLast? = some last →
      ∀ x ∈ l, str_lt last x = false := by
  intro l
  induction l with
  | nil => intro _ _ _ x hx; simp at hx
  | cons a rest ih =>
    intro last h hl x hx
    cases rest with
    | nil =>
      simp only [List.getLast?_singleton, Option.some.injEq] at hl
      simp only [List.mem_singleton] at hx
      subst hl
      subst hx
      exact str_lt_irrefl _
    | cons b rest2 =>
      have hl2 : (b :: rest2).getLast? = some last := by
        simpa [List.getLast?_cons_cons] using hl
      have hmem : last ∈ b :: rest2 := List.mem_of_getLast?_eq_some hl2
      simp only [List.mem_cons] at hx
      rcases hx with rfl | hx
      · exact ascending_le_head x _ h last hmem
      · exact ih last ((ascending_le_cons a _).1 h).2 hl2 x (List.mem_cons.2 hx)

/-- Putting `k` at position `i` of an ascending list keeps it ascending when
the keys before are `<= k` and the key at `i` is `>= k`. -/
theorem ascending_le_insert (k : Bytes) :
    ∀ (l : List Bytes) (i : Nat), ascending_le l = true →
      (∀ x ∈ l.take i, str_lt k x = false) → (∀ y, l[i]? = some y → str_lt y k = false) →
      ascending_le (l.take i ++ k :: l.drop i) = true := by
  intro l
  induction l with
  | nil => intro i _ _ _; simp [ascending_le]
  | cons a rest ih =>
    intro i h hbefore hat
    cases i with
    | zero =>
      simp only [List.take_zero, List.nil_append, List.drop_zero]
      exact (ascending_le_cons k _).2 ⟨fun b hb => hat b (by simpa using hb), h⟩
    | succ j =>
      simp only [List.take_succ_cons, List.cons_append, List.drop_succ_cons]
      have hrest := (ascending_le_cons a rest).1 h
      refine (ascending_le_cons a _).2 ⟨?_, ih j hrest.2
        (fun x hx => hbefore x (by simp [hx])) (fun y hy => hat y (by simpa using hy))⟩
      intro b hb
      have ha : str_lt k a = false := hbefore a (by simp)
      cases rest with
      | nil =>
        simp only [List.take_nil, List.drop_nil, List.nil_append, List.head?_cons,
          Option.some.injEq] at hb
        rw [← hb]; exact ha
      | cons c rest2 =>
        cases j with
        | zero =>
          simp only [List.take_zero, List.nil_append, List.head?_cons, Option.some.injEq] at hb
          rw [← hb]; exact ha
        | succ j2 =>
          simp only [List.take_succ_cons, List.cons_append, List.head?_cons,
            Option.some.injEq] at hb
          rw [← hb]
          exact hrest.1 c rfl

/-- C18 (amended): the leaf branch up to the size test.  For every leaf whose
keys are in ascending order (equal neighbours allowed), with one pointer per
key and `last` its last key, every key `k` and every data offset `o`: when `k`
is not `last`, the entry is put at a position `i` of both vectors, after
which the leaf holds one more entry, its keys are still in ascending order,
the pointers are parallel to the keys and `(k, o)` is one of the entries;
this holds also when `k` equals another key of the leaf.  When `k` equals
`last` the leaf is left as it was. -/
theorem leaf_insert_entry_spec (leaf : Node) (k : Bytes) (o : Int) (last : Bytes)
    (hsorted : ascending_le leaf.keys = true)
    (hpar : leaf.pointers.length = leaf.keys.length)
    (hlast : leaf.keys.getLast? = some last) :
    (k = last → leaf_insert_entry leaf k o = Except.ok leaf)
    ∧ (k ≠ last → ∃ r i, leaf_insert_entry leaf k o = Except.ok r
        ∧ i ≤ leaf.keys.length
        ∧ r.keys = leaf.keys.take i ++ k :: leaf.keys.drop i
        ∧ r.pointers = leaf.pointers.take i ++ o :: leaf.pointers.drop i
        ∧ r.keys.length = leaf.keys.length + 1
        ∧ r.pointers.length = r.keys.length
        ∧ ascending_le r.keys = true
        ∧ (k, o) ∈ r.keys.zip r.pointers) := by
  obtain ⟨first, rest, hkeys⟩ : ∃ first rest, leaf.keys = first :: rest := by
    cases h : leaf.keys with
    | nil => rw [h] at hlast; simp at hlast
    | cons a t => exact ⟨a, t, rfl⟩
  have hfirst : vec_at leaf.keys 0 = Except.ok first := by simp [vec_at, hkeys]
  have hvlast : vec_at leaf.keys (leaf.keys.length - 1) = Except.ok last := by
    rw [List.getLast?_eq_getElem?] at hlast
    simp [vec_at, hlast]
  have hupper := ascending_le_last leaf.keys last hsorted hlast
  have hfl : str_lt last first = false := hupper first (by simp [hkeys])
  -- what the result looks like once the entry went in at position `i`
  have build : ∀ i, i ≤ leaf.keys.length →
      ascending_le (leaf.keys.take i ++ k :: leaf.keys.drop i) = true →
      leaf_insert_entry leaf k o = Except.ok { leaf with
        keys := leaf.keys.take i ++ k :: leaf.keys.drop i,
        pointers := leaf.pointers.take i ++ o :: leaf.pointers.drop i } →
      ∃ r i, leaf_insert_entry leaf k o = Except.ok r
        ∧ i ≤ leaf.keys.length
        ∧ r.keys = leaf.keys.take i ++ k :: leaf.keys.drop i
        ∧ r.pointers = leaf.pointers.take i ++ o :: leaf.pointers.drop i
        ∧ r.keys.length = leaf.keys.length + 1
        ∧ r.pointers.length = r.keys.length
        ∧ ascending_le r.keys = true
        ∧ (k, o) ∈ r.keys.zip r.pointers := by
    intro i hi hasc heq
    refine ⟨_, i, heq, hi, rfl, rfl, ?_, ?_, hasc, ?_⟩
    · simp only [List.length_append, List.length_take, List.length_cons, List.length_drop]
      omega
    · simp only [List.length_append, List.length_take, List.length_cons, List.length_drop, hpar]
    · have hl : (leaf.keys.take i).length = (leaf.pointers.take i).length := by
        simp only [List.length_take, hpar]
      simp only [List.zip_append hl, List.zip_cons_cons, List.mem_append, List.mem_cons,
        true_or, or_true]
  by_cases hA : str_lt k first = true
  · -- before the first key
    have hne : k ≠ last := by
      rintro rfl
      rw [hA] at hfl
      exact absurd hfl (by simp)
    refine ⟨fun h => absurd h hne, fun _ => build 0 (Nat.zero_le _) ?_ ?_⟩
    · simp only [List.take_zero, List.nil_append, List.drop_zero]
      refine (ascending_le_cons k _).2 ⟨fun b hb => ?_, hsorted⟩
      rw [hkeys] at hb
      simp only [List.head?_cons, Option.some.injEq] at hb
      rw [← hb]
      exact str_lt_asymm hA
    · simp only [leaf_insert_entry, hfirst, hA, if_true, List.take_zero, List.nil_append,
        List.drop_zero]
  · by_cases hB : str_gt k last = true
    · -- after the last key
      have hlk : str_lt last k = true := by rw [← str_gt_eq_lt]; exact hB
      have hne : k ≠ last := by
        rintro rfl
        rw [str_lt_irrefl] at hlk
        exact absurd hlk (by simp)
      refine ⟨fun h => absurd h hne, fun _ => build leaf.keys.length (Nat.le_refl _) ?_ ?_⟩
      · refine ascending_le_insert k leaf.keys _ hsorted (fun x hx => ?_) (fun y hy => ?_)
        · rw [List.take_length] at hx
          exact str_lt_asymm (str_lt_of_le_of_lt (hupper x hx) hlk)
        · simp at hy
      · have e1 : leaf.keys.take leaf.keys.length ++ k :: leaf.keys.drop leaf.keys.length
            = leaf.keys ++ [k] := by simp
        have e2 : leaf.pointers.take leaf.keys.length ++ o :: leaf.pointers.drop leaf.keys.length
            = leaf.pointers ++ [o] := by rw [← hpar]; simp
        rw [e1, e2]
        simp only [leaf_insert_entry, hfirst, hA, Bool.false_eq_true, if_false, hvlast, hB,
          if_true]
    · have hkl : str_lt last k = false := by
        rw [← str_gt_eq_lt]
        exact Bool.eq_false_iff.2 hB
      cases hC : first_index (fun x => str_gt x k) leaf.keys with
      | none =>
        have hall := first_index_none _ _ hC
        have hlk : str_lt k last = false := by
          have := hall last (List.mem_of_getLast?_eq_some hlast)
          rwa [str_gt_eq_lt] at this
        have heq : k = last := str_le_antisymm hlk hkl
        refine ⟨fun _ => ?_, fun h => absurd heq h⟩
        simp only [leaf_insert_entry, hfirst, hA, Bool.false_eq_true, if_false, hvlast, hB, hC]
      | some idx =>
        obtain ⟨hidx, hbefore, y, hy, hgt⟩ := first_index_some _ _ _ hC
        have hky : str_lt k y = true := by rwa [str_gt_eq_lt] at hgt
        have hne : k ≠ last := by
          rintro rfl
          have := hupper y (List.getElem?_mem hy)
          rw [hky] at this
          exact absurd this (by simp)
        refine ⟨fun h => absurd h hne, fun _ => build idx (Nat.le_of_lt hidx) ?_ ?_⟩
        · refine ascending_le_insert k leaf.keys idx hsorted (fun x hx => ?_) (fun z hz => ?_)
          · have := hbefore x hx
            rwa [str_gt_eq_lt] at this
          · rw [hy] at hz
            simp only [Option.some.injEq] at hz
            rw [← hz]
            exact str_lt_asymm hky
        · have h1 : ¬ leaf.keys.length < idx := by omega
          have h2 : ¬ leaf.pointers.length < idx := by omega
          simp only [leaf_insert_entry, hfirst, hA, Bool.false_eq_true, if_false, hvlast, hB, hC,
            vec_insert, h1, h2]

/-- C18, witness: into a leaf with the keys `A` and `C`, a second `C` is not
inserted, `B` goes between the two keys and a second `A` goes in as well. -/
theorem leaf_insert_entry_spec_witness :
    leaf_insert_entry (leaf_node 1024 [[65], [67]] [0, 2] (-1) (-1)) [67] 4
        = Except.ok (leaf_node 1024 [[65], [67]] [0, 2] (-1) (-1))
    ∧ (∃ r, leaf_insert_entry (leaf_node 1024 [[65], [67]] [0, 2] (-1) (-1)) [66] 4 = Except.ok r
        ∧ r.keys.length = 3 ∧ r.pointers.length = r.keys.length ∧ ascending_le r.keys = true
        ∧ ([66], 4) ∈ r.keys.zip r.pointers)
    ∧ (∃ r, leaf_insert_entry (leaf_node 1024 [[65], [67]] [0, 2] (-1) (-1)) [65] 4 = Except.ok r
        ∧ r.keys.length = 3 ∧ r.pointers.length = r.keys.length ∧ ascending_le r.keys = true
        ∧ ([65], 4) ∈ r.keys.zip r.pointers) :=
  ⟨(leaf_insert_entry_spec (leaf_node 1024 [[65], [67]] [0, 2] (-1) (-1)) [67] 4 [67]
      (by decide) (by decide) (by decide)).1 rfl,
    match (leaf_insert_entry_spec (leaf_node 1024 [[65], [67]] [0, 2] (-1) (-1)) [66] 4 [67]
      (by decide) (by decide) (by decide)).2 (by decide) with
    | ⟨r, _, h, _, _, _, h1, h2, h3, h4⟩ => ⟨r, h, h1, h2, h3, h4⟩,
    match (leaf_insert_entry_spec (leaf_node 1024 [[65], [67]] [0, 2] (-1) (-1)) [65] 4 [67]
      (by decide) (by decide) (by decide)).2 (by decide) with
    | ⟨r, _, h, _, _, _, h1, h2, h3, h4⟩ => ⟨r, h, h1, h2, h3, h4⟩⟩

/-- C18, counterexample: into a leaf with the keys `A` and `C`, a second `C`
is not inserted: the leaf holds the same two entries as before.  The first
insert of `create_index`, whose root already holds the key, relies on it. -/
theorem last_key_not_inserted_again :
    ascending [[65], [67]] = true
    ∧ leaf_insert_entry (leaf_node 1024 [[65], [67]] [0, 2] (-1) (-1)) [67] 4
        = Except.ok (leaf_node 1024 [[65], [67]] [0, 2] (-1) (-1))
    ∧ leaf_insert_entry (Node.single true [67] 0 0) [67] 0 = Except.ok (Node.single true [67] 0 0) := by
  decide

/-! ### The first insert -/

/-- `Node(addr)` on a block that decodes as a leaf. -/
theorem from_address_leaf_block (w : World) (addr : Int) (buf : Bytes) (next prev : Int)
    (keys : List Bytes) (pointers : List Int) (hpos : 0 < addr)
    (hblock : read_block w.index_file addr = Except.ok buf)
    (hdec : decode_node w.key_len buf = Except.ok (true, next, prev, keys, pointers)) :
    Node.from_address w addr = Except.ok (leaf_node addr keys pointers prev next) := by
  have hna : ¬ addr ≤ 0 := by omega
  simp only [Node.from_address, read_from_disk, hna, if_false, hblock, hdec]
  simp [leaf_node]

/-- C15 (amended): the minimum tree.  For every data file that holds exactly
one record, of at least `key_len` bytes (`degree >= 1`) with no zero byte
among the first `key_len`, under a name of at most 252 bytes, none of them
zero, that does not hold `0000` and does not end in `0`: `create_index`
inserts one record; afterwards the root address in the metadata block (and
in the global) is 1024 and the block there is a leaf with `next = prev = -1`
that holds one key, the first `key_len` bytes of the record, and one data
offset, 0.  The index file has these two blocks. -/
theorem minimum_tree (fuel : Nat) (name data record : Bytes) (keylen : Nat) (w : World)
    (hname : name.length ≤ 252) (hzero : 0 ∉ name)
    (hfour : find_sub [48, 48, 48, 48] name = none) (hlast : name.getLast? ≠ some 48)
    (hdata : file_content w.data_files name = some data)
    (hone : getlines [] 0 0 data = [(record, 0)])
    (hlen : keylen ≤ record.length) (hdeg : 1 ≤ degree_of keylen)
    (hkey : 0 ∉ record.take keylen) :
    ∃ w1 block, create_index (fuel + 1) name keylen w = Res.ok 1 w1
      ∧ read_block w1.index_file 0 = Except.ok block
      ∧ read_long block 265 = Except.ok 1024
      ∧ w1.root_address = 1024
      ∧ Node.from_address w1 1024
          = Except.ok (leaf_node 1024 [record.take keylen] [0] (-1) (-1))
      ∧ w1.index_file.length = 2 := by
  have hname1 : name.length ≤ 256 := by omega
  have hback := name_reads_back_of (256 - name.length) (by omega) name hfour hlast
  have hk479 := degree_of_pos keylen hdeg
  have hk : keylen < 2 ^ 32 := by norm_num; omega
  have hd : degree_of keylen < 2 ^ 32 := by
    have := degree_of_le keylen
    norm_num
    omega
  have h1024 : in_long 1024 := by constructor <;> norm_num
  have hklen : (record.take keylen).length = keylen := by
    simp only [List.length_take]
    omega
  -- the metadata block
  have hhdr := create_index_header_eq name keylen (-1) false w hname1 hzero
  simp only [if_true, Bool.false_eq_true, if_false] at hhdr
  have hinit := initialize_header name keylen (degree_of keylen) 1024
    { w with root_address := 1024, index_file := [header_bytes name keylen (degree_of keylen) 1024] }
    [] hname1 hk hd h1024 rfl
  have hfn : (match find_sub [48, 48, 48, 48]
        (name ++ List.replicate (256 - name.length) 48 ++ [0]) with
      | some end_idx => (name ++ List.replicate (256 - name.length) 48 ++ [0]).take end_idx
      | none => name ++ List.replicate (256 - name.length) 48 ++ [0]) = name := by
    simp only [hback]
    rw [List.append_assoc]
    exact List.take_left' rfl
  rw [hfn] at hinit
  -- the insert of the one record
  have hkeys : ∀ k ∈ (Node.single true (record.take keylen) 0 0).keys,
      k.length = keylen ∧ 0 ∉ k := by
    intro k hk1
    simp only [Node.single, List.mem_singleton] at hk1
    subst hk1
    exact ⟨hklen, hkey⟩
  have hentry : leaf_insert_entry (Node.single true (record.take keylen) 0 0)
      (record.take keylen) 0 = Except.ok (Node.single true (record.take keylen) 0 0) := by
    simp [leaf_insert_entry, Node.single, vec_at, str_lt_irrefl, str_gt_eq_lt, first_index]
  have hfit : ¬ block_size < (encode_node (Node.single true (record.take keylen) 0 0)).length := by
    rw [encode_node_length keylen _ hkeys]
    simp only [Node.single, payload, block_size]
    simp
    omega
  have hhdr1 : create_index_header name keylen (-1) false w = Res.ok ()
      ⟨[header_bytes name keylen (degree_of keylen) 1024], w.data_files, w.degree, w.key_len,
        1024, w.data_filename⟩ := hhdr
  have hinit1 : initialize_bplus_tree
      ⟨[header_bytes name keylen (degree_of keylen) 1024], w.data_files, w.degree, w.key_len,
        1024, w.data_filename⟩ = Res.ok ()
      ⟨[header_bytes name keylen (degree_of keylen) 1024], w.data_files, degree_of keylen, keylen,
        1024, name⟩ := hinit
  have hwrite : write_to_disk (Node.single true (record.take keylen) 0 0)
      ⟨[header_bytes name keylen (degree_of keylen) 1024], w.data_files, degree_of keylen, keylen,
        1024, name⟩ = Res.ok (flush_node { Node.single true (record.take keylen) 0 0 with
          address := 1024 })
      ⟨[header_bytes name keylen (degree_of keylen) 1024,
        encode_node (Node.single true (record.take keylen) 0 0)], w.data_files,
        degree_of keylen, keylen, 1024, name⟩ := by
    simp only [write_to_disk, hfit, if_false]
    simp [Node.single, file_length, block_size, write_block, set_block]
  have hsize : (Node.single true (record.take keylen) 0 0).keys.length
      ≤ 2 * degree_of keylen := by
    simp only [Node.single, List.length_singleton]
    omega
  have hins : insert_record_in_btree (fuel + 1) (Node.single true (record.take keylen) 0 0)
      (record.take keylen) 0
      ⟨[header_bytes name keylen (degree_of keylen) 1024], w.data_files, degree_of keylen, keylen,
        1024, name⟩ = Res.ok none
      ⟨[header_bytes name keylen (degree_of keylen) 1024,
        encode_node (Node.single true (record.take keylen) 0 0)], w.data_files,
        degree_of keylen, keylen, 1024, name⟩ := by
    have hread : read_from_disk
        ⟨[header_bytes name keylen (degree_of keylen) 1024], w.data_files, degree_of keylen,
          keylen, 1024, name⟩ (Node.single true (record.take keylen) 0 0)
        = Except.ok (Node.single true (record.take keylen) 0 0) := by
      simp [read_from_disk, Node.single]
    have hleaf : ((Node.single true (record.take keylen) 0 0).is_leaf = false) = False := by
      simp [Node.single]
    simp only [insert_record_in_btree, eng_bind_apply, lift_read, hread, hleaf, if_false,
      insert_in_leaf, hentry, get_world, hsize, if_true, hwrite, eng_pure_apply]
  have hloop : create_index_loop (fuel + 1) [(record, 0)] true
      ⟨[header_bytes name keylen (degree_of keylen) 1024], w.data_files, degree_of keylen, keylen,
        1024, name⟩ = Res.ok 1
      ⟨[header_bytes name keylen (degree_of keylen) 1024,
        encode_node (Node.single true (record.take keylen) 0 0)], w.data_files,
        degree_of keylen, keylen, 1024, name⟩ := by
    simp only [create_index_loop, eng_bind_apply, get_world, if_true, eng_pure_apply,
      Nat.cast_zero, hins]
  have hcreate : create_index (fuel + 1) name keylen w = Res.ok 1
      ⟨[header_bytes name keylen (degree_of keylen) 1024,
        encode_node (Node.single true (record.take keylen) 0 0)], w.data_files,
        degree_of keylen, keylen, 1024, name⟩ := by
    have hcname : c_name name = name := by
      simp [c_name, strlen_of_no_zero name hzero]
    simp only [create_index, eng_bind_apply, hhdr1, hinit1, get_world, hcname, hdata,
      Option.getD_some,
      hone, hloop]
  obtain ⟨_, _, _, _, _, hroot⟩ := header_fields name keylen (degree_of keylen) 1024 hname1
  have hdec := decode_encode keylen (Node.single true (record.take keylen) 0 0) hkeys
    (by simp [payload, Node.single]) (by constructor <;> norm_num [Node.single])
    (by constructor <;> norm_num [Node.single])
    (by intro v hv; simp [payload, Node.single] at hv; subst hv; constructor <;> norm_num)
    (by constructor <;> norm_num [Node.single])
  refine ⟨_, header_bytes name keylen (degree_of keylen) 1024, hcreate, by simp [read_block], ?_,
    rfl, ?_, rfl⟩
  · simp only [read_long, hroot, long_value_long_bytes 1024 h1024]
  · exact from_address_leaf_block _ 1024 _ (-1) (-1) [record.take keylen] [0] (by norm_num)
      (by simp [read_block, block_size]) hdec

/-- C15, witness (scenario S1): `create` with `key_len = 15` over the one
record `AAAAAAAAAAAAAAA record one`. -/
theorem minimum_tree_witness :
    ∃ w1 block, create_index 8 data_name 15 (start_world data_name one_data) = Res.ok 1 w1
      ∧ read_block w1.index_file 0 = Except.ok block
      ∧ read_long block 265 = Except.ok 1024
      ∧ w1.root_address = 1024
      ∧ Node.from_address w1 1024
          = Except.ok (leaf_node 1024 [one_record.take 15] [0] (-1) (-1))
      ∧ w1.index_file.length = 2 :=
  minimum_tree 7 data_name one_data one_record 15 (start_world data_name one_data) (by decide)
    (by decide) (by decide) (by decide) (by decide) (by decide) (by decide) (by decide)
    (by decide)

/-- C15, counterexamples.  The data file `data0` holds one record of ten
bytes; `create` with `key_len = 5` reads the name back as `data`, finds no
such file and inserts nothing: the metadata block gives the root address
1024 and the index file has no block there.  The data file `data` holds the
one record `A`, a zero byte, `BCD`; `create` with `key_len = 3` writes the key as the C
string `A`, and the block at 1024 does not read back as a node. -/
theorem one_record_not_indexed :
    getlines [] 0 0 hi_data = [([72, 73, 32, 32, 32, 32, 114, 101, 115, 116], 0)]
    ∧ create_index 8 data0_name 5 (start_world data0_name hi_data)
      = Res.ok 0 { index_file := [header_bytes data0_name 5 37 1024],
                   data_files := [(data0_name, hi_data)], degree := 37, key_len := 5,
                   root_address := 1024, data_filename := data_name }
    ∧ getlines [] 0 0 zero_data = [([65, 0, 66, 67, 68], 0)]
    ∧ (create_index 8 data_name 3 (start_world data_name zero_data)).value = some 1
    ∧ Node.from_address (create_index 8 data_name 3 (start_world data_name zero_data)).world 1024
      = Except.error Fault.indeterminate := by
  decide!

/-! ### Nodes that do not fit a block -/

/-- C11, the code at the failing input: with `key_len = 1` the degree of line
692 is 54, and a leaf of `2 * 54 = 108` one-byte keys takes
`25 + 108 * 2 + 8 * 108 = 1105` bytes: `write_to_disk` copies 81 bytes past
its buffer of 1024.  The degree counts `key_len + 8` bytes for an entry, the
encoder writes `key_len + 1 + 8`.  The bound fails at `key_len = 15` as well,
the key length of the program's own examples (degree 21, 1033 bytes for a
leaf and 1041 for an internal node). -/
theorem full_leaf_overruns_buffer :
    degree_of 1 = 54
    ∧ ¬ (25 + 2 * degree_of 1 * (1 + 1) + 8 * (2 * degree_of 1) ≤ block_size)
    ∧ (encode_node (leaf_node (-1) ((byte_keys 108).map (fun c => [c]))
        ((List.range 108).map (fun i => (2 * i : Int))) (-1) (-1))).length = 1105
    ∧ write_to_disk (leaf_node (-1) ((byte_keys 108).map (fun c => [c]))
        ((List.range 108).map (fun i => (2 * i : Int))) (-1) (-1)) (letter_world [])
      = Res.fault Fault.buffer_overrun (letter_world [])
    ∧ degree_of 15 = 21
    ∧ ¬ (25 + 2 * degree_of 15 * (15 + 1) + 8 * (2 * degree_of 15) ≤ block_size)
    ∧ ¬ (25 + 2 * degree_of 15 * (15 + 1) + 8 * (2 * degree_of 15 + 1) ≤ block_size) := by
  decide!

/-- C14, the code at the failing input: with `key_len = 1` (degree 54, so the
root leaf is to split at the 109th insert) and the root leaf holding the 99
keys `33` to `131`, the insert of a 100th key, `132`, finds the key absent,
appends the record to the data file and then encodes a leaf of
`25 + 100 * 2 + 8 * 100 = 1025` bytes: one byte past the buffer.  The leaf
of 99 keys is still the block on disk. -/
theorem hundredth_insert_overruns :
    degree_of 1 = 54
    ∧ Node.from_address (letter_world (byte_keys 99)) 1024
      = Except.ok (leaf_node 1024 ((byte_keys 99).map (fun c => [c]))
          ((List.range 99).map (fun i => (2 * i : Int))) (-1) (-1))
    ∧ insert_record 2 [132] (letter_world (byte_keys 99))
      = Res.fault Fault.buffer_overrun { letter_world (byte_keys 99) with
          data_files := [(data_name, letter_data (byte_keys 99) ++ [10, 132])] } := by
  decide!

/-! ### Keys shorter than `key_len` -/

/-- C16, the code at the failing input: `create` with `key_len = 5` over a
data file whose one record is `HI`.  The key inserted is `line.substr(0, 5)`,
the two bytes `HI` with no blanks added; the leaf is written with the key as
the C string `HI`, three bytes, and its offset right after.  Read with
`key_len = 5` the block gives a key of five bytes, `HI`, the zero byte and two
bytes of the offset, and then an offset that runs past what was written:
`find` of `HI`, which pads the key to five bytes, does not find the record. -/
theorem short_key_not_padded :
    create_index 8 data_name 5 (start_world data_name short_data)
      = Res.ok 1 { hi_world with
          index_file := [header_bytes data_name 5 37 1024,
                         encode_node (leaf_node 1024 [[72, 73]] [0] (-1) (-1))],
          data_files := [(data_name, short_data)] }
    ∧ read_keys (encode_node (leaf_node 1024 [[72, 73]] [0] (-1) (-1))) 5 1 25
      = Except.ok ([[72, 73, 0, 0, 0]], 31)
    ∧ normalize_key 5 [72, 73] = [72, 73, 32, 32, 32]
    ∧ (find_index 2 [72, 73]
        (create_index 8 data_name 5 (start_world data_name short_data)).world).failure
      = some Fault.indeterminate := by
  decide!

/-! ### Splits below the root -/

theorem lift_read_world {α : Type} (x : World → Except Fault α) (w w1 : World) (a : α)
    (h : lift_read x w = Res.ok a w1) : w1 = w := by
  unfold lift_read at h
  split at h
  · simp only [Res.ok.injEq] at h
    exact h.2.symm
  · exact absurd h (by simp)

theorem pure_world {α : Type} (a b : α) (w w1 : World)
    (h : (pure a : Eng α) w = Res.ok b w1) : w1 = w := by
  have h1 : Res.ok a w = Res.ok b w1 := h
  simp only [Res.ok.injEq] at h1
  exact h1.2.symm

/-- The new node of `split_index_node` has no address yet. -/
theorem split_index_node_address (degree : Nat) (index a n : Node) (k : Bytes)
    (h : split_index_node degree index = Except.ok (a, k, n)) : n.address = -1 := by
  unfold split_index_node at h
  split at h
  · split at h
    · simp only [Except.ok.injEq, Prod.mk.injEq] at h
      rw [← h.2.2]
      rfl
    · exact absurd h (by simp)
  · exact absurd h (by simp)

/-- When `insert_in_index` returns a node, the split was that of a node other
than the root: nothing was written and the node returned has no address
(lines 374-407). -/
theorem insert_in_index_unwritten (index newchild r : Node) (w w1 : World)
    (h : insert_in_index index newchild w = Res.ok (some r) w1) :
    w1 = w ∧ r.address = -1 := by
  have tail : ∀ (index : Node) (wz : World),
      ((do
        let w ← get_world
        if index.keys.length ≤ 2 * w.degree then
          let _ ← write_to_disk index
          pure none
        else
          let (index, parent_key, newchild) ← lift_read (fun _ => split_index_node w.degree index)
          if index.address = w.root_address then
            let index ← write_to_disk index
            let newchild ← write_to_disk newchild
            let new_root ← write_to_disk
              (Node.multi false [parent_key] [] [index.address, newchild.address])
            let w ← get_world
            set_world { w with root_address := new_root.address }
            update_metadata
            pure none
          else
            pure (some newchild)) : Eng (Option Node)) wz = Res.ok (some r) w1 →
        w1 = wz ∧ r.address = -1 := by
    intro index wz h
    obtain ⟨wv, wc, h5, h⟩ := bind_ok_inv _ _ _ _ _ h
    simp only [get_world, Res.ok.injEq] at h5
    obtain ⟨e1, e2⟩ := h5
    subst e1
    subst e2
    split_ifs at h with hsize
    · obtain ⟨_, _, _, h⟩ := bind_ok_inv _ _ _ _ _ h
      simp [eng_pure_apply] at h
    · obtain ⟨triple, wd, h6, h⟩ := bind_ok_inv _ _ _ _ _ h
      have ed := lift_read_world _ _ _ _ h6
      subst ed
      obtain ⟨a, k, n⟩ := triple
      simp only at h
      split_ifs at h with hroot
      · obtain ⟨_, _, _, h⟩ := bind_ok_inv _ _ _ _ _ h
        obtain ⟨_, _, _, h⟩ := bind_ok_inv _ _ _ _ _ h
        obtain ⟨_, _, _, h⟩ := bind_ok_inv _ _ _ _ _ h
        obtain ⟨_, _, _, h⟩ := bind_ok_inv _ _ _ _ _ h
        obtain ⟨_, _, _, h⟩ := bind_ok_inv _ _ _ _ _ h
        obtain ⟨_, _, _, h⟩ := bind_ok_inv _ _ _ _ _ h
        simp [eng_pure_apply] at h
      · simp only [eng_pure_apply, Res.ok.injEq, Option.some.injEq] at h
        refine ⟨h.2.symm, ?_⟩
        rw [← h.1]
        unfold lift_read at h6
        split at h6
        · rename_i hs
          simp only [Res.ok.injEq] at h6
          rw [h6.1] at hs
          exact split_index_node_address _ _ _ _ _ hs
        · exact absurd h6 (by simp)
  unfold insert_in_index at h
  obtain ⟨key, wa, h1, hb⟩ := bind_ok_inv _ _ _ _ _ h
  clear h
  have ea := lift_read_world _ _ _ _ h1
  subst ea
  cases hfi : first_index (fun k => str_lt key k) index.keys with
  | none =>
    simp only [hfi] at hb
    obtain ⟨_, wx, h2, hc⟩ := bind_ok_inv _ _ _ _ _ hb
    have ex := pure_world _ _ _ _ h2
    subst ex
    exact tail _ _ hc
  | some key_idx =>
    simp only [hfi] at hb
    obtain ⟨_, wx, h2, hc⟩ := bind_ok_inv _ _ _ _ _ hb
    have ex := lift_read_world _ _ _ _ h2
    subst ex
    obtain ⟨_, wy, h3, hd⟩ := bind_ok_inv _ _ _ _ _ hc
    have ey := lift_read_world _ _ _ _ h3
    subst ey
    obtain ⟨_, wz, h4, he⟩ := bind_ok_inv _ _ _ _ _ hd
    have ez := pure_world _ _ _ _ h4
    subst ez
    exact tail _ _ he

/-- C19, the code at the failing input: `degree = 1`, and the internal node at
2048, which is not the root, holds the keys `2` and `4` over three children
when its last child splits and hands up the sibling at 8192 with first key
`5`.  The node overflows to three keys; `split_index_node` takes the median
`4` out and returns a new node with the key `5` over 7168 and 8192.  Neither
node is written: the world is as before and the new node has the address
`-1`.  The parent then reads the new node's first key, `5`, not the median
`4`, and stores the child address `-1`. -/
theorem index_split_unwritten :
    insert_in_index (index_node 2048 [wide_key 50, wide_key 52] [5120, 6144, 7168])
        (leaf_node 8192 [wide_key 53, wide_key 54] [] 7168 (-1)) wide_world3
      = Res.ok (some (Node.multi false [wide_key 53] [] [7168, 8192])) wide_world3
    ∧ (Node.multi false [wide_key 53] [] [7168, 8192]).address = -1
    ∧ (insert_in_index (index_node 3072 [wide_key 50] [1024, 2048])
        (Node.multi false [wide_key 53] [] [7168, 8192]) wide_world3).value = some none
    ∧ Node.from_address (insert_in_index (index_node 3072 [wide_key 50] [1024, 2048])
        (Node.multi false [wide_key 53] [] [7168, 8192]) wide_world3).world 3072
      = Except.ok (index_node 3072 [wide_key 50, wide_key 53] [1024, 2048, -1]) := by
  decide!

/-- C20, the code at the failing input: `degree = 1`, the leaf at 2048 below
the root holds the second and the third key and the fourth is inserted.  The
leaf splits; the sibling is written at 4096 with the third and the fourth key
(the world after the call is `wide_world4`), and the node returned to the
parent is the sibling as `write_to_disk` left it: at its address, with no
keys, so there is no `keys[0]` for the parent to read. -/
theorem split_returns_flushed_sibling :
    Node.from_address wide_world3 2048
      = Except.ok (leaf_node 2048 [wide_key 50, wide_key 51] [237, 474] 1024 (-1))
    ∧ insert_record_in_btree 7
        (leaf_node 2048 [wide_key 50, wide_key 51] [237, 474] 1024 (-1)) (wide_key 52) 711
        wide_world3
      = Res.ok (some { address := 4096, is_leaf := false, keys := [], children := [],
                       pointers := [], next := -1, prev := -1 })
          { wide_world4 with data_files := wide_world3.data_files }
    ∧ Node.from_address wide_world4 4096
      = Except.ok (leaf_node 4096 [wide_key 51, wide_key 52] [474, 711] 2048 (-1))
    ∧ vec_at ([] : List Bytes) 0 = Except.error Fault.out_of_range := by
  decide!

/-! ### Splitting a node -/

theorem vec_at_append_length {α : Type} (pre post : List α) (a : α) (i : Nat)
    (hi : pre.length = i) : vec_at (pre ++ a :: post) i = Except.ok a := by
  subst hi
  have h : (pre ++ a :: post)[pre.length]? = some a := by
    rw [List.getElem?_append_right (Nat.le_refl _)]
    simp
  simp only [vec_at, h]

theorem vec_erase_append_length {α : Type} (pre post : List α) (a : α) (i : Nat)
    (hi : pre.length = i) : vec_erase (pre ++ a :: post) i = pre ++ post := by
  subst hi
  simp [vec_erase]

/-- The loop of `split_index_node` moves every key from position `degree` on,
and every child from position `degree + 1` on, to the new vectors. -/
theorem split_index_loop_spec (degree : Nat) (lo_keys : List Bytes) (lo_children : List Int)
    (hlo : lo_keys.length = degree) (hloc : lo_children.length = degree + 1) :
    ∀ (hi_keys : List Bytes) (hi_children : List Int) (steps : Nat) (new_keys : List Bytes)
      (new_children : List Int),
      hi_children.length = hi_keys.length → hi_keys.length ≤ steps →
      split_index_loop degree steps (lo_keys ++ hi_keys) (lo_children ++ hi_children) new_keys
          new_children
        = Except.ok (lo_keys, lo_children, new_keys ++ hi_keys, new_children ++ hi_children) := by
  intro hi_keys
  induction hi_keys with
  | nil =>
    intro hi_children steps new_keys new_children hlen _
    have hc : hi_children = [] := List.length_eq_zero.1 (by simpa using hlen)
    subst hc
    cases steps with
    | zero => simp [split_index_loop]
    | succ s => simp [split_index_loop, hlo]
  | cons k ks ih =>
    intro hi_children steps new_keys new_children hlen hsteps
    cases hi_children with
    | nil => simp at hlen
    | cons c cs =>
      cases steps with
      | zero => simp at hsteps
      | succ s =>
        have hlt : degree < (lo_keys ++ k :: ks).length := by
          simp only [List.length_append, List.length_cons, hlo]
          omega
        have hrec := ih cs s (new_keys ++ [k]) (new_children ++ [c])
          (by simpa using hlen) (by simpa using hsteps)
        simp only [split_index_loop, hlt, if_true, vec_at_append_length lo_keys ks k degree hlo,
          vec_at_append_length lo_children cs c (degree + 1) hloc,
          vec_erase_append_length lo_keys ks k degree hlo,
          vec_erase_append_length lo_children cs c (degree + 1) hloc, hrec, List.append_assoc,
          List.singleton_append]

/-- C21: the arithmetic of an internal split.  For every `t` and every
internal node with `2t + 1` keys and `2t + 2` children, `split_index_node`
sets `parent_key` to the key at index `t`, leaves the node with its first `t`
keys and first `t + 1` children, and returns a new internal node with the keys
from index `t + 1` on and the children from index `t + 1` on: `t` keys and
`t + 1` children on both sides, which together with the median are the keys
and children the node had, in order. -/
theorem split_index_node_spec (t : Nat) (index : Node)
    (hkeys : index.keys.length = 2 * t + 1) (hchildren : index.children.length = 2 * t + 2) :
    ∃ median, index.keys[t]? = some median
      ∧ split_index_node t index = Except.ok
          ({ index with keys := index.keys.take t, children := index.children.take (t + 1) },
           median,
           Node.multi false (index.keys.drop (t + 1)) [] (index.children.drop (t + 1)))
      ∧ (index.keys.take t).length = t ∧ (index.children.take (t + 1)).length = t + 1
      ∧ (Node.multi false (index.keys.drop (t + 1)) [] (index.children.drop (t + 1))).keys.length
          = t
      ∧ (Node.multi false (index.keys.drop (t + 1)) [] (index.children.drop (t + 1))).children.length
          = t + 1
      ∧ index.keys.take t ++ median :: index.keys.drop (t + 1) = index.keys
      ∧ index.children.take (t + 1) ++ index.children.drop (t + 1) = index.children := by
  have ht : t < index.keys.length := by omega
  have hc : t + 1 < index.children.length := by omega
  obtain ⟨A, m, B, hkeq, hA, hB⟩ : ∃ A m B, index.keys = A ++ m :: B ∧ A.length = t
      ∧ B.length = t :=
    ⟨index.keys.take t, index.keys[t], index.keys.drop (t + 1),
      by rw [← List.drop_eq_getElem_cons ht, List.take_append_drop],
      by simp only [List.length_take]; omega, by simp only [List.length_drop]; omega⟩
  obtain ⟨C, c, D, hceq, hC, hD⟩ : ∃ C c D, index.children = C ++ c :: D ∧ C.length = t + 1
      ∧ D.length = t :=
    ⟨index.children.take (t + 1), index.children[t + 1], index.children.drop (t + 1 + 1),
      by rw [← List.drop_eq_getElem_cons hc, List.take_append_drop],
      by simp only [List.length_take]; omega, by simp only [List.length_drop]; omega⟩
  have e1 : (A ++ m :: B).take t = A := List.take_left' hA
  have e2 : (A ++ m :: B).drop (t + 1) = B := by
    have : A ++ m :: B = (A ++ [m]) ++ B := by simp
    rw [this]
    exact List.drop_left' (by simp [hA])
  have e3 : (C ++ c :: D).take (t + 1) = C := List.take_left' hC
  have e4 : (C ++ c :: D).drop (t + 1) = c :: D := List.drop_left' hC
  have hloop := split_index_loop_spec t A C hA hC B D (A ++ m :: B).length [] [c]
    (by rw [hD, hB]) (by simp only [List.length_append, List.length_cons]; omega)
  refine ⟨m, ?_, ?_, ?_, ?_, ?_, ?_, ?_, ?_⟩
  · rw [hkeq, List.getElem?_append_right (by omega)]
    simp [hA]
  · simp only [split_index_node, hkeq, hceq, vec_at_append_length A B m t hA,
      vec_at_append_length C D c (t + 1) hC, vec_erase_append_length A B m t hA,
      vec_erase_append_length C D c (t + 1) hC, hloop, e1, e2, e3, e4, List.nil_append,
      List.singleton_append]
  · rw [hkeq, e1, hA]
  · rw [hceq, e3, hC]
  · simp only [Node.multi, hkeq, e2, hB]
  · simp [Node.multi, hceq, e4, hD]
  · rw [hkeq, e1, e2]
  · exact List.take_append_drop _ _

/-- C21, witness: `t = 2`, five keys `a` to `e` over six children. -/
theorem split_index_node_spec_witness :
    ∃ median, (index_node 5120 [[97], [98], [99], [100], [101]]
          [1024, 2048, 3072, 4096, 6144, 7168]).keys[2]? = some median
      ∧ split_index_node 2 (index_node 5120 [[97], [98], [99], [100], [101]]
          [1024, 2048, 3072, 4096, 6144, 7168])
        = Except.ok (index_node 5120 [[97], [98]] [1024, 2048, 3072], median,
            Node.multi false [[100], [101]] [] [4096, 6144, 7168])
      ∧ median = [99] :=
  match split_index_node_spec 2 (index_node 5120 [[97], [98], [99], [100], [101]]
      [1024, 2048, 3072, 4096, 6144, 7168]) (by decide) (by decide) with
  | ⟨median, h1, h2, _⟩ => ⟨median, h1, h2, by
      have h : (index_node 5120 [[97], [98], [99], [100], [101]]
          [1024, 2048, 3072, 4096, 6144, 7168]).keys[2]? = some [99] := by decide
      rw [h] at h1
      exact (Option.some.inj h1).symm⟩

theorem ascending_le_drop : ∀ (l : List Bytes) (i : Nat), ascending_le l = true →
    ascending_le (l.drop i) = true := by
  intro l
  induction l with
  | nil => intro i _; simp [ascending_le]
  | cons a rest ih =>
    intro i h
    cases i with
    | zero => simpa using h
    | succ j =>
      simp only [List.drop_succ_cons]
      exact ih j ((ascending_le_cons a rest).1 h).2

/-- C22: the arithmetic of a leaf split.  For every `t` and every leaf with
`2t + 1` keys and as many pointers, `split_leaf_node` leaves the leaf with its
first `t` keys and pointers and returns a new leaf with the keys and pointers
from index `t` on, `t + 1` of them; keys and pointers stay paired, the entries
of the two leaves one after the other are the entries the leaf had, and, the
keys being in ascending order, no key of the new leaf is less than its first
key. -/
theorem split_leaf_node_spec (t : Nat) (leaf : Node)
    (hkeys : leaf.keys.length = 2 * t + 1) (hptrs : leaf.pointers.length = 2 * t + 1) :
    split_leaf_node t leaf = Except.ok
        ({ leaf with keys := leaf.keys.take t, pointers := leaf.pointers.take t },
         Node.multi true (leaf.keys.drop t) (leaf.pointers.drop t) [])
      ∧ (leaf.keys.take t).length = t ∧ (leaf.pointers.take t).length = t
      ∧ (Node.multi true (leaf.keys.drop t) (leaf.pointers.drop t) []).keys.length = t + 1
      ∧ (Node.multi true (leaf.keys.drop t) (leaf.pointers.drop t) []).pointers.length = t + 1
      ∧ (leaf.keys.take t).zip (leaf.pointers.take t)
          ++ (leaf.keys.drop t).zip (leaf.pointers.drop t) = leaf.keys.zip leaf.pointers
      ∧ (ascending_le leaf.keys = true →
          ∃ first, (Node.multi true (leaf.keys.drop t) (leaf.pointers.drop t) []).keys[0]?
              = some first
            ∧ ∀ k ∈ leaf.keys.drop t, str_lt k first = false) := by
  have h1 : ¬ leaf.keys.length < t + (t + 1) := by omega
  have h2 : ¬ leaf.pointers.length < t + (t + 1) := by omega
  have e1 : (leaf.keys.drop t).take (t + 1) = leaf.keys.drop t :=
    List.take_of_length_le (by simp only [List.length_drop]; omega)
  have e2 : (leaf.pointers.drop t).take (t + 1) = leaf.pointers.drop t :=
    List.take_of_length_le (by simp only [List.length_drop]; omega)
  have e3 : leaf.keys.length - (t + 1) = t := by omega
  have e4 : leaf.pointers.length - (t + 1) = t := by omega
  refine ⟨?_, ?_, ?_, ?_, ?_, ?_, ?_⟩
  · simp only [split_leaf_node, vec_slice, h1, h2, if_false, e1, e2, e3, e4]
  · simp only [List.length_take]; omega
  · simp only [List.length_take]; omega
  · simp only [Node.multi, List.length_drop]; omega
  · simp only [Node.multi, if_true, List.length_drop]; omega
  · rw [← List.take_append_drop t (leaf.keys.zip leaf.pointers), List.zip_eq_zipWith,
      List.zip_eq_zipWith, List.zip_eq_zipWith, List.take_zipWith, List.drop_zipWith]
  · intro hasc
    have hdrop := ascending_le_drop leaf.keys t hasc
    cases hd : leaf.keys.drop t with
    | nil =>
      have : (leaf.keys.drop t).length = t + 1 := by simp only [List.length_drop]; omega
      rw [hd] at this
      simp at this
    | cons first rest =>
      rw [hd] at hdrop
      refine ⟨first, by simp [Node.multi, hd], ?_⟩
      intro k hk
      simp only [List.mem_cons] at hk
      rcases hk with rfl | hk
      · exact str_lt_irrefl _
      · exact ascending_le_head first rest hdrop k hk

/-- C22, witness: `t = 1`, the leaf with the keys `a`, `b`, `c`. -/
theorem split_leaf_node_spec_witness :
    split_leaf_node 1 (leaf_node 1024 [[97], [98], [99]] [0, 2, 4] (-1) (-1))
      = Except.ok (leaf_node 1024 [[97]] [0] (-1) (-1), Node.multi true [[98], [99]] [2, 4] []) :=
  (split_leaf_node_spec 1 (leaf_node 1024 [[97], [98], [99]] [0, 2, 4] (-1) (-1)) (by decide)
    (by decide)).1

/-! ### The descent loops -/

/-- The position at which the descent loops stop is the smallest index with
`key < keys[i]`, or the number of keys when no key is greater. -/
theorem descent_index_spec (key : Bytes) (keys : List Bytes) :
    is_descent_index key keys ((first_index (fun k => str_lt key k) keys).getD keys.length) := by
  cases hf : first_index (fun k => str_lt key k) keys with
  | none =>
    have hall := first_index_none _ _ hf
    refine ⟨Nat.le_refl _, fun j k _ hk => hall k (List.getElem?_mem hk), fun k hk => ?_⟩
    simp at hk
  | some i =>
    obtain ⟨hi, hbefore, y, hy, hp⟩ := first_index_some _ _ _ hf
    refine ⟨Nat.le_of_lt hi, fun j k hj hk => hbefore k ?_, fun k hk => ?_⟩
    · have hj1 : j < i := hj
      have : (keys.take i)[j]? = some k := by
        rw [List.getElem?_take_of_lt hj1]
        exact hk
      exact List.getElem?_mem this
    · simp only [Option.getD_some] at hk
      rw [hy] at hk
      rw [← Option.some.inj hk]
      exact hp

/-- The three descent loops agree at a node.  At an internal node with one child
more than keys, `find_record`, `list_records_count` and
`insert_record_in_btree` all go on in `get_child(i)` for the same `i`: the
smallest index with `key < keys[i]`, or the number of keys when no key is
greater. -/
theorem descent_agrees (w : World) (fuel : Nat) (root node : Node) (key : Bytes)
    (hread : read_from_disk w root = Except.ok node) (hinternal : node.is_leaf = false)
    (hshape : node.children.length = node.keys.length + 1) :
    ∃ i, is_descent_index key node.keys i
      ∧ find_record w (fuel + 1) root key
          = (match get_child w node i with
              | Except.error e => Except.error e
              | Except.ok c => find_record w fuel c key)
      ∧ (∀ count, list_records_count w (fuel + 1) root key count
          = (match get_child w node i with
              | Except.error e => Except.error e
              | Except.ok c => list_records_count w fuel c key count))
      ∧ (∀ offset, insert_record_in_btree (fuel + 1) root key offset w
          = (match get_child w node i with
              | Except.error e => Res.fault e w
              | Except.ok c =>
                match insert_record_in_btree fuel c key offset w with
                | Res.fault e w1 => Res.fault e w1
                | Res.ok none w1 => Res.ok none w1
                | Res.ok (some newchild) w1 => insert_in_index node newchild w1)) := by
  have hdesc : descend w node key = get_child w node
      ((first_index (fun k => str_lt key k) node.keys).getD node.keys.length) := by
    unfold descend
    cases first_index (fun k => str_lt key k) node.keys with
    | some i => rfl
    | none =>
      have h0 : node.children.length ≠ 0 := by omega
      have h1 : node.children.length - 1 = node.keys.length := by omega
      simp only [h0, if_false, h1, Option.getD_none]
  have hleaf : ¬ node.is_leaf = true := by simp [hinternal]
  refine ⟨_, descent_index_spec key node.keys, ?_, ?_, ?_⟩
  · simp only [find_record, hread, hleaf, Bool.false_eq_true, if_false, hdesc]
  · intro count
    simp only [list_records_count, hread, hleaf, Bool.false_eq_true, if_false, hdesc]
  · intro offset
    simp only [insert_record_in_btree, eng_bind_apply, lift_read, hread, hinternal, if_true]
    cases get_child w node
        ((first_index (fun k => str_lt key k) node.keys).getD node.keys.length) with
    | error e => rfl
    | ok c =>
      simp only
      cases insert_record_in_btree fuel c key offset w with
      | fault e w1 => rfl
      | ok r w1 =>
        cases r with
        | none => rfl
        | some nc => rfl

/-! ### The effect of `write_to_disk` -/

theorem set_block_get_ne (block : Bytes) :
    ∀ (file : List Bytes) (i j : Nat), j ≠ i → j < file.length →
      (set_block block file i)[j]? = file[j]? := by
  intro file
  induction file with
  | nil => intro i j _ hj; simp at hj
  | cons b rest ih =>
    intro i j hne hj
    cases i with
    | zero =>
      cases j with
      | zero => exact absurd rfl hne
      | succ j1 => simp [set_block]
    | succ i1 =>
      cases j with
      | zero => simp [set_block]
      | succ j1 =>
        simp only [set_block, List.getElem?_cons_succ]
        exact ih i1 j1 (by omega) (by simpa using hj)

/-- C26: the effect of `write_to_disk`.  For every node whose encoding fits
the buffer and whose address is `-1`, negative or a multiple of `block_size`:
the call completes; the node keeps its address, or gets the length of the
index file when the address was `-1`; its keys, children and pointers are
empty, `next = prev = -1` and `is_leaf = false`; the block at the address holds
the encoding of the node, every other block the file had is as before, and
the data files and the globals are untouched. -/
theorem write_to_disk_effect (n : Node) (w : World)
    (hfit : (encode_node n).length ≤ block_size)
    (halign : n.address.toNat % block_size = 0) :
    ∃ m w1, write_to_disk n w = Res.ok m w1
      ∧ m.address = (if n.address = -1 then (file_length w.index_file : Int) else n.address)
      ∧ m.keys = [] ∧ m.children = [] ∧ m.pointers = [] ∧ m.next = -1 ∧ m.prev = -1
      ∧ m.is_leaf = false
      ∧ (0 ≤ m.address → read_block w1.index_file m.address = Except.ok (encode_node n))
      ∧ (∀ j, ((block_size * j : Nat) : Int) ≠ m.address → j < w.index_file.length →
          w1.index_file[j]? = w.index_file[j]?)
      ∧ w1.data_files = w.data_files ∧ w1.degree = w.degree ∧ w1.key_len = w.key_len
      ∧ w1.root_address = w.root_address ∧ w1.data_filename = w.data_filename := by
  have hlen : ¬ block_size < (encode_node n).length := by omega
  obtain ⟨a, ha, halign1⟩ : ∃ a : Int,
      (if n.address = -1 then (file_length w.index_file : Int) else n.address) = a
        ∧ a.toNat % block_size = 0 := by
    by_cases h : n.address = -1
    · refine ⟨(file_length w.index_file : Int), by simp [h], ?_⟩
      rw [Int.toNat_ofNat]
      exact Nat.mul_mod_right _ _
    · exact ⟨n.address, by simp [h], halign⟩
  by_cases hneg : a < 0
  · refine ⟨flush_node { n with address := a }, w, ?_, ha.symm ▸ rfl, rfl, rfl, rfl, rfl, rfl, rfl,
      ?_, fun _ _ _ => rfl, rfl, rfl, rfl, rfl, rfl⟩
    · simp only [write_to_disk, ha, hlen, if_false, write_block, hneg, if_true]
    · intro h0
      have : (flush_node { n with address := a }).address = a := rfl
      rw [this] at h0
      omega
  · refine ⟨flush_node { n with address := a },
      { w with index_file := set_block (encode_node n) w.index_file (a.toNat / block_size) }, ?_,
      ha.symm ▸ rfl, rfl, rfl, rfl, rfl, rfl, rfl, ?_, ?_, rfl, rfl, rfl, rfl, rfl⟩
    · simp only [write_to_disk, ha, hlen, if_false, write_block, hneg, halign1, ne_eq,
        not_true_eq_false]
    · intro _
      show read_block (set_block (encode_node n) w.index_file (a.toNat / block_size)) a = _
      simp only [read_block, halign1, ne_eq, not_true_eq_false, if_false, set_block_get]
    · intro j hj hjlen
      show (set_block (encode_node n) w.index_file (a.toNat / block_size))[j]? = _
      apply set_block_get_ne _ _ _ _ _ hjlen
      intro hje
      apply hj
      show ((block_size * j : Nat) : Int) = a
      simp only [block_size] at halign1 hje ⊢
      omega

/-- For example, at the root of the index of three 236-byte keys, the lookup
of the third key goes on in the child the descent index gives. -/
theorem descent_agrees_witness :
    ∃ i, is_descent_index (wide_key 51) [wide_key 50] i
      ∧ find_record wide_world3 2 (index_node 3072 [wide_key 50] [1024, 2048]) (wide_key 51)
          = (match get_child wide_world3 (index_node 3072 [wide_key 50] [1024, 2048]) i with
              | Except.error e => Except.error e
              | Except.ok c => find_record wide_world3 1 c (wide_key 51)) :=
  match descent_agrees wide_world3 1 (index_node 3072 [wide_key 50] [1024, 2048])
      (index_node 3072 [wide_key 50] [1024, 2048]) (wide_key 51) (by decide!) rfl rfl with
  | ⟨i, h1, h2, _⟩ => ⟨i, h1, h2⟩

/-- C26, witness: a new leaf written to the index of scenario S5 is appended
at 2048, comes back without keys, and leaves the two blocks before it alone. -/
theorem write_to_disk_effect_witness :
    ∃ m w1, write_to_disk (leaf_node (-1) [[72, 73, 88, 88, 88]] [11] (-1) (-1)) hi_world
        = Res.ok m w1
      ∧ m.address = 2048 ∧ m.keys = []
      ∧ w1.index_file[0]? = hi_world.index_file[0]?
      ∧ w1.index_file[1]? = hi_world.index_file[1]? :=
  match write_to_disk_effect (leaf_node (-1) [[72, 73, 88, 88, 88]] [11] (-1) (-1)) hi_world
      (by decide!) (by decide) with
  | ⟨m, w1, h, ha, hk, _, _, _, _, _, _, hframe, _⟩ =>
    ⟨m, w1, h, ha.trans (by decide), hk,
      hframe 0 (by rw [ha]; decide) (by decide), hframe 1 (by rw [ha]; decide) (by decide)⟩

/-! ### Listing across leaves -/

/-- C24, the code at the failing input: `degree = 1`; the leaf at 1024 holds
the keys ending in `0` and `1`, its right neighbour at 2048 those ending in
`2` and `3`.  `list` of three records from the key ending in `1` starts at
index 1 of the first leaf, prints that entry, and goes on in the next leaf at
index 1 again (`a = i`, line 586): it prints the entry of the key ending in
`3` and stops at the end of the chain with two entries printed.  The entry of
the key ending in `2`, at index 0 of the second leaf, is skipped. -/
theorem list_skips_start_of_next_leaf :
    insert_record 8 (wide_key 48) wide_world3
      = Res.ok (Message.inserting (10 :: wide_key 48) 711) wide_world3b
    ∧ Node.from_address wide_world3b 1024
      = Except.ok (leaf_node 1024 [wide_key 48, wide_key 49] [712, 0] (-1) 2048)
    ∧ Node.from_address wide_world3b 2048
      = Except.ok (leaf_node 2048 [wide_key 50, wide_key 51] [237, 474] 1024 (-1))
    ∧ list_records 8 (wide_key 49) 3 wide_world3b
      = Res.ok [(0, wide_key 49), (474, wide_key 51)] wide_world3b := by
  decide!

/-! ### The new root -/

/-- C23, the code at the failing input: `create` with `key_len = 236`, hence
`degree = 1`, over three records in a data file whose name has 256 bytes.
The name fills the 256 bytes of the metadata block without padding, so
`initialize_bplus_tree` finds no `0000` and sets `data_filename` to all 257
bytes it read, the name and its terminating zero.  The third insert splits the
root leaf and writes the sibling at 2048, the old root at 1024 and the new
root at 3072; `update_metadata` then passes the 257 bytes to `create_index`,
where `string(256 - 257, '0')` throws.  The metadata block keeps the root
address 1024: a `find` of the second key now reads the old root leaf, which
holds the first key only. -/
theorem root_split_fails_for_long_name :
    name256.length = 256
    ∧ create_index 8 name256 236 (start_world name256 (wide_data 3))
      = Res.fault Fault.bad_length
          { index_file :=
              [header_bytes name256 236 1 1024,
               encode_node (leaf_node 1024 [wide_key 49] [0] (-1) 2048),
               encode_node (leaf_node 2048 [wide_key 50, wide_key 51] [237, 474] 1024 (-1)),
               encode_node (index_node 3072 [wide_key 50] [1024, 2048])],
            data_files := [(name256, wide_data 3)], degree := 1, key_len := 236,
            root_address := 3072, data_filename := name256 ++ [0] }
    ∧ read_long (header_bytes name256 236 1 1024) 265 = Except.ok 1024
    ∧ (find_index 2 (wide_key 50)
        { index_file :=
            [header_bytes name256 236 1 1024,
             encode_node (leaf_node 1024 [wide_key 49] [0] (-1) 2048),
             encode_node (leaf_node 2048 [wide_key 50, wide_key 51] [237, 474] 1024 (-1)),
             encode_node (index_node 3072 [wide_key 50] [1024, 2048])],
          data_files := [(name256, wide_data 3)], degree := 1, key_len := 236,
          root_address := 3072, data_filename := name256 ++ [0] }).value
      = some Message.cannot_find := by
  decide!

/-- C25, the code at the failing input: `degree = 1` and four records.  The
fourth insert descends from the root at 3072 into the child the descent index
gives, index 1, the leaf at 2048, as `find` and `list` would.  The leaf
splits, the fourth key goes to the new leaf at 4096, and the insert stops
before the root learns of that leaf.  On the files as they are then, `find`
and `list` for the fourth key still descend into the leaf at 2048, which
holds the second key only: `find` does not find the fourth key, and `list`
from it starts at the record of the second key. -/
theorem insert_and_find_part_ways :
    (first_index (fun k => str_lt (wide_key 52) k) [wide_key 50]).getD 1 = 1
    ∧ get_child (wide_run 3).world (index_node 3072 [wide_key 50] [1024, 2048]) 1
      = Except.ok (leaf_node 2048 [wide_key 50, wide_key 51] [237, 474] 1024 (-1))
    ∧ (wide_run 4).failure = some Fault.out_of_range
    ∧ Node.from_address (wide_run 4).world 4096
      = Except.ok (leaf_node 4096 [wide_key 51, wide_key 52] [474, 711] 2048 (-1))
    ∧ descend (wide_run 4).world (index_node 3072 [wide_key 50] [1024, 2048]) (wide_key 52)
      = Except.ok (leaf_node 2048 [wide_key 50] [237] 1024 4096)
    ∧ find_from_root (wide_run 4).world 2 (wide_key 52) = Except.ok (-1)
    ∧ (list_records 8 (wide_key 52) 1 (wide_run 4).world).value
      = some [(237, wide_key 50)] := by
  rw [wide_run_three, wide_run_four]
  decide!

/-! ### The occupancy invariant: blocks and slots -/

theorem set_block_map_set (n : Node) :
    ∀ (nodes : List Node) (i : Nat), i < nodes.length →
      set_block (encode_node n) (nodes.map encode_node) i = (nodes.set i n).map encode_node := by
  intro nodes
  induction nodes with
  | nil => intro i hi; simp at hi
  | cons a rest ih =>
    intro i hi
    cases i with
    | zero => rfl
    | succ j =>
      simp only [List.map_cons, set_block, List.set_cons_succ]
      rw [ih j (by simpa using hi)]

theorem slot_address_pos (i : Nat) : (0 : Int) < ((block_size * (i + 1) : Nat) : Int) := by
  simp only [block_size]
  omega

theorem slot_address_index (i : Nat) :
    ((block_size * (i + 1) : Nat) : Int).toNat % block_size = 0
      ∧ ((block_size * (i + 1) : Nat) : Int).toNat / block_size = i + 1 := by
  rw [Int.toNat_ofNat]
  exact ⟨Nat.mul_mod_right _ _, Nat.mul_div_cancel_left _ (by decide)⟩

/-- Writing a node at the address `a` of slot `i`. -/
theorem write_at (w : World) (hdr : Bytes) (nodes : List Node) (n : Node) (i : Nat) (a : Int)
    (hfile : w.index_file = hdr :: nodes.map encode_node)
    (hfit : (encode_node n).length ≤ block_size) (hi : i < nodes.length)
    (haddr : n.address = a) (hpos : 0 < a) (h1 : a.toNat % block_size = 0)
    (h2 : a.toNat / block_size = i + 1) :
    write_to_disk n w = Res.ok (flush_node n)
      { w with index_file := hdr :: (nodes.set i n).map encode_node } := by
  have hlen : ¬ block_size < (encode_node n).length := by omega
  have hne : n.address ≠ -1 := by omega
  have hneg : ¬ n.address < 0 := by omega
  rw [← haddr] at h1 h2
  simp only [write_to_disk, hne, if_false, hlen, write_block, hneg, h1, ne_eq, not_true_eq_false,
    h2, hfile, set_block, set_block_map_set n nodes i hi]

/-- Writing a node that has the address of slot `i`. -/
theorem write_slot (w : World) (hdr : Bytes) (nodes : List Node) (n : Node) (i : Nat)
    (hfile : w.index_file = hdr :: nodes.map encode_node)
    (hfit : (encode_node n).length ≤ block_size) (hi : i < nodes.length)
    (haddr : n.address = ((block_size * (i + 1) : Nat) : Int)) :
    write_to_disk n w = Res.ok (flush_node n)
      { w with index_file := hdr :: (nodes.set i n).map encode_node } :=
  write_at w hdr nodes n i _ hfile hfit hi haddr (slot_address_pos i) (slot_address_index i).1
    (slot_address_index i).2

theorem as_stored_of_in_long (v : Int) (h : in_long v) : long_value (long_bytes v) = v :=
  long_value_long_bytes v h

theorem world_file_file (w : World) (f g : List Bytes) :
    ({ ({ w with index_file := f } : World) with index_file := g } : World)
      = { w with index_file := g } := rfl

theorem from_address_files (w : World) (files : List (Bytes × Bytes)) (a : Int) :
    Node.from_address { w with data_files := files } a = Node.from_address w a := rfl

end BTreeIndex
